import Mathlib

/-!
Verification development for the deenurp repository.

Shallow embedding of:
  - the taxonomy tree data model (spec section 3; the TaxNode class itself
    lives in `deenurp/tax.py` / taxtastic, outside `src/`),
  - `find_nodes` from `deenurp/subcommands/hrefpkg_build.py`,
  - the outlier-filtering scheduler (`action`, `mock_filter`,
    `sequences_above_rank`, `parse_usearch_allpairs`) from
    `deenurp/subcommands/filter_outliers.py`,
  - `_merge_by_taxid`, `_find_clusters_to_merge` and `merge_clusters` from
    `deenurp/select.py`.
-/

namespace Deenurp

/-! ### Taxonomy tree data model -/

mutual
/-- Modelled from the spec: section 3 TaxonomyNode (the class lives in
`deenurp/tax.py` / `taxtastic.taxtable`, which are not under `src/`).
A node has a tax_id, a rank, a name, directly attached sequence ids, and an
ordered list of children (encoded as a mutually inductive forest so that all
functions are structurally recursive and kernel-reducible). -/
inductive TaxNode : Type where
  | mk (tax_id : String) (rank : String) (nodeName : String)
       (sequence_ids : List String) (children : TaxForest) : TaxNode
deriving DecidableEq
/-- Modelled from the spec: ordered list of child nodes of a TaxonomyNode. -/
inductive TaxForest : Type where
  | nil : TaxForest
  | cons (hd : TaxNode) (tl : TaxForest) : TaxForest
deriving DecidableEq
end

def TaxNode.tax_id : TaxNode → String
  | .mk t _ _ _ _ => t

def TaxNode.rank : TaxNode → String
  | .mk _ r _ _ _ => r

def TaxNode.nodeName : TaxNode → String
  | .mk _ _ nm _ _ => nm

def TaxNode.sequence_ids : TaxNode → List String
  | .mk _ _ _ ids _ => ids

def TaxNode.children : TaxNode → TaxForest
  | .mk _ _ _ _ cs => cs

def TaxForest.toList : TaxForest → List TaxNode
  | .nil => []
  | .cons c cs => c :: cs.toList

mutual
/-- Modelled from the spec: iterating over a taxonomy node (`for n in node`)
yields the node itself and all of its descendants, depth-first in child
order. -/
def TaxNode.subtree : TaxNode → List TaxNode
  | .mk t r nm ids cs => .mk t r nm ids cs :: TaxForest.subtreeF cs
/-- Nodes of all trees of a forest, in order. -/
def TaxForest.subtreeF : TaxForest → List TaxNode
  | .nil => []
  | .cons c cs => c.subtree ++ cs.subtreeF
end

/-- Modelled from the spec: `node.subtree_sequence_ids()` chains the
`sequence_ids` of every node of the subtree. -/
def TaxNode.seqIds (n : TaxNode) : List String :=
  n.subtree.flatMap TaxNode.sequence_ids

/-- Embeds `any_sequences_below` of `hrefpkg_build.find_nodes`: whether any
node of the subtree has a nonempty `sequence_ids`. -/
def anySeqBelow (n : TaxNode) : Bool :=
  n.subtree.any (fun m => !m.sequence_ids.isEmpty)

/-- Embeds `rdict = dict(zip(ranks, xrange(len(ranks))))` followed by lookup:
position of a rank name in the global rank order (rank lists are duplicate
free, so the first index is the dictionary value). -/
def rankIdx (ranks : List String) (r : String) : Nat :=
  ranks.indexOf r

/-- Embeds the Python substring test `'below' in rank`. -/
def strContainsBelow (s : String) : Bool :=
  let cs := s.toList
  let pat := "below".toList
  (List.range (cs.length + 1)).any (fun i => (cs.drop i).take pat.length = pat)

/-- A taxonomy: the global rank order together with the root node
(`taxonomy.ranks` in the source). -/
structure Taxonomy where
  ranks : List String
  root : TaxNode
deriving DecidableEq

mutual
/-- Embeds the recursive generator `inner` of
`hrefpkg_build.find_nodes` (src/deenurp/subcommands/hrefpkg_build.py lines
103-120): prefer `want_rank` nodes whose subtree has sequences; otherwise the
concatenation of the children's results; otherwise the node itself as a
fallback when its subtree has sequences, its rank label does not contain
"below", and its rank is strictly deeper than `index_rank`. -/
def innerSel (ranks : List String) (index_rank want_rank : String) : TaxNode → List TaxNode
  | .mk t r nm ids cs =>
    if r = want_rank ∧ anySeqBelow (.mk t r nm ids cs) then [.mk t r nm ids cs]
    else
      let below := innerSelF ranks index_rank want_rank cs
      if below.isEmpty then
        if anySeqBelow (.mk t r nm ids cs) ∧ ¬strContainsBelow r = true ∧
            rankIdx ranks index_rank < rankIdx ranks r
        then [.mk t r nm ids cs] else []
      else below
/-- Concatenation, in child order, of the `inner` results of the trees of a
forest (`itertools.chain.from_iterable(inner(i) for i in node.children)`). -/
def innerSelF (ranks : List String) (index_rank want_rank : String) : TaxForest → List TaxNode
  | .nil => []
  | .cons c cs =>
    innerSel ranks index_rank want_rank c ++ innerSelF ranks index_rank want_rank cs
end

/-- Embeds `hrefpkg_build.find_nodes(taxonomy, index_rank, want_rank)`. -/
def find_nodes (tax : Taxonomy) (index_rank : String) (want_rank : String := "species") :
    List TaxNode :=
  innerSel tax.ranks index_rank want_rank tax.root

/-! ### Outlier-filtering scheduler (`filter_outliers.action`) -/

/-- One row of the per-sequence filtering outcome DataFrame: seqname,
nullable centroid, nullable distance to the medoid (NaN is modelled as
`none`), outlier flag, and the `filter_rank` tax_id column added during
aggregation (NaN for sequences kept above the filter rank). -/
structure FilterRow where
  seqname : String
  centroid : Option String
  dist : Option ℚ
  is_out : Bool
  rank_col : Option String
deriving DecidableEq

/-- Embeds `filter_outliers.mock_filter(seqs, keep)`: one row per sequence,
empty centroid and distance, `is_out` equal to `not keep`. -/
def mock_filter (seqs : List String) (keep : Bool) : List FilterRow :=
  seqs.map (fun s => ⟨s, none, none, !keep, none⟩)

/-- Embeds `filter_outliers.sequences_above_rank(taxonomy, rank)`: the
sequence ids attached directly to nodes whose rank index is strictly smaller
than the index of `rank` in the global rank order. -/
def sequences_above_rank (tax : Taxonomy) (rank : String) : List String :=
  (tax.root.subtree.filter
    (fun n => rankIdx tax.ranks n.rank < rankIdx tax.ranks rank)).flatMap
    TaxNode.sequence_ids

/-- Rare-taxon policy (`--rare-taxon-action`, argparse choices keep/drop). -/
inductive RareAction : Type where
  | keep : RareAction
  | drop : RareAction
deriving DecidableEq

/-- Configuration received by `filter_outliers.action` (validated CLI
values). -/
structure FilterConfig where
  filter_rank : String
  min_seqs_for_filtering : Nat
  rare_taxon_action : RareAction
  distance_cutoff : ℚ
deriving DecidableEq

/-- Kind of a job handed to the worker pool: a `mock_filter` call for a rare
taxon, or a real `filter_worker` call (alignment plus outlier detection). -/
inductive JobKind : Type where
  | mock (keep : Bool) : JobKind
  | real : JobKind
deriving DecidableEq

/-- Bookkeeping for one submitted future: originating node and its
(de-duplicated) subtree sequence ids, plus which callable was submitted. -/
structure SubJob where
  tax_id : String
  taxName : String
  seqs : List String
  kind : JobKind
deriving DecidableEq

/-- Dispatch decision for one `filter_rank` node: skip it when its subtree
has no sequences, submit a `mock_filter` job when the (de-duplicated)
sequence count is below `min_seqs_for_filtering` (keeping iff the
rare-taxon action is KEEP), otherwise submit a real `filter_worker` job. -/
def nodeJob (cfg : FilterConfig) (n : TaxNode) : Option SubJob :=
  let seqs := n.seqIds.dedup
  if seqs.isEmpty then none
  else if seqs.length < cfg.min_seqs_for_filtering then
    some ⟨n.tax_id, n.nodeName, seqs, .mock (cfg.rare_taxon_action = .keep)⟩
  else some ⟨n.tax_id, n.nodeName, seqs, .real⟩

/-- Embeds the dispatch loop of `filter_outliers.action` (lines 306-336):
for every node at `filter_rank`, in traversal order, take
`seqs = frozenset(node.subtree_sequence_ids())`; skip the node if `seqs` is
empty; submit a `mock_filter` job when `len(seqs) < min_seqs_for_filtering`;
otherwise submit a real `filter_worker` job.  All submissions happen before
any result is awaited. -/
def submittedJobs (cfg : FilterConfig) (tax : Taxonomy) : List SubJob :=
  (tax.root.subtree.filter (fun n => n.rank = cfg.filter_rank)).filterMap (nodeJob cfg)

/-- Errors a run of the filtering action can surface: an error raised inside
a job by an external collaborator, or the final aggregation assertion. -/
inductive SchedErr : Type where
  | external (msg : String) : SchedErr
  | assertionFailed : SchedErr
deriving DecidableEq

/-- An oracle for the external alignment/distance collaborator composed with
`outliers.outliers` (spec section 6, AlignAndDistance): given the distance
cutoff, the node's tax_id and its sequence ids, produce the rows of the
per-node outcome or fail.  The internals (cmalign/muscle/usearch, FastTree,
medoid computation) are outside the embedded core. -/
def FilterOracle : Type :=
  ℚ → String → List String → Except SchedErr (List FilterRow)

/-- Result of one submitted callable: `mock_filter` never fails, a real
`filter_worker` job consults the external collaborator. -/
def jobResult (oracle : FilterOracle) (cfg : FilterConfig) (j : SubJob) :
    Except SchedErr (List FilterRow) :=
  match j.kind with
  | .mock keep => .ok (mock_filter j.seqs keep)
  | .real => oracle cfg.distance_cutoff j.tax_id j.seqs

/-- Adds the `filter_rank` tax_id column to a completed job's rows
(`filtered[filter_rank_col] = pd.Series(info['node'].tax_id, ...)`). -/
def tagRank (tid : String) (rows : List FilterRow) : List FilterRow :=
  rows.map (fun r => { r with rank_col := some tid })

/-- Embeds the result-collection loop of `filter_outliers.action` (lines
339-367).  `order` is the sequence of future indices in the order in which
the control thread observes their completion; on the first future whose job
raised, the loop re-raises that error (the pool is shut down without waiting
and nothing further is merged); otherwise every completed job's rows are
tagged with the node's tax_id and appended to the accumulator. -/
def mergeLoop (oracle : FilterOracle) (cfg : FilterConfig) (jobs : List SubJob) :
    List Nat → Except SchedErr (List FilterRow)
  | [] => .ok []
  | i :: rest =>
    match jobs.get? i with
    | none => mergeLoop oracle cfg jobs rest
    | some j =>
      match jobResult oracle cfg j with
      | .error e => .error e
      | .ok rows => (mergeLoop oracle cfg jobs rest).map (fun acc => tagRank j.tax_id rows ++ acc)

/-- All sequence ids attached anywhere in the taxonomy
(`\x7bs for node in taxonomy for s in node.sequence_ids\x7d` from the final
assertion, as a list). -/
def allSeqIds (tax : Taxonomy) : List String :=
  tax.root.subtree.flatMap TaxNode.sequence_ids

/-- Embeds `filter_outliers.action` end to end: sequences classified above
the filter rank are kept unconditionally via `mock_filter(..., keep=True)`;
the per-node jobs are dispatched and their outcomes merged in completion
order `order`; the first job failure is re-raised; on success the
concatenated outcome is checked against the assertion that every attached
sequence id occurs among the outcome seqnames (set comparison), and the
outcome rows are returned. -/
def runAction (cfg : FilterConfig) (tax : Taxonomy) (oracle : FilterOracle)
    (order : List Nat) : Except SchedErr (List FilterRow) :=
  let above := mock_filter (sequences_above_rank tax cfg.filter_rank) true
  let jobs := submittedJobs cfg tax
  match mergeLoop oracle cfg jobs order with
  | .error e => .error e
  | .ok merged =>
    let allRows := above ++ merged
    if (allSeqIds tax).toFinset = (allRows.map FilterRow.seqname).toFinset
    then .ok allRows
    else .error .assertionFailed

/-- Final kept-id set: seqnames of the rows whose outlier flag is false
(`kept_ids = set(all_outcomes.index[~all_outcomes.is_out])`). -/
def keptIds (rows : List FilterRow) : Finset String :=
  ((rows.filter (fun r => !r.is_out)).map FilterRow.seqname).toFinset

/-- Rows a single job contributes to the accumulator when it succeeds
(tagged with the node's tax_id); empty for a failed job. -/
def jobRowsJ (oracle : FilterOracle) (cfg : FilterConfig) (j : SubJob) : List FilterRow :=
  match jobResult oracle cfg j with
  | .error _ => []
  | .ok rows => tagRank j.tax_id rows

/-- Rows contributed by the future at position `i` of the submitted list. -/
def jobRows (oracle : FilterOracle) (cfg : FilterConfig) (jobs : List SubJob)
    (i : Nat) : List FilterRow :=
  match jobs.get? i with
  | none => []
  | some j => jobRowsJ oracle cfg j

/-! ### `parse_usearch_allpairs` (`filter_outliers.py` lines 122-155) -/

/-- One row of a `usearch -allpairs_global -blast6out` file (the columns the
parser uses). -/
structure B6Row where
  query : String
  target : String
  pct_id : ℚ
  align_len : Nat
deriving DecidableEq

/-- Distance of a row: `1.0 - pct_id / 100.0`. -/
def b6Dist (r : B6Row) : ℚ :=
  1 - r.pct_id / 100

/-- First row attaining the maximal alignment length
(`align_len.idxmax()` picks the first occurrence of the maximum). -/
def bestRow (rows : List B6Row) : Option B6Row :=
  rows.foldl
    (fun acc r =>
      match acc with
      | none => some r
      | some b => if b.align_len < r.align_len then some r else acc)
    none

/-- Embeds the groupby-idxmax dedup step: for each distinct (query, target)
pair keep the row with the longest alignment (first occurrence on ties). -/
def retainedRows (rows : List B6Row) : List B6Row :=
  ((rows.map (fun r => (r.query, r.target))).dedup).filterMap
    (fun k => bestRow (rows.filter (fun r => (r.query, r.target) = k)))

/-- Typed parser failure (`UsearchError`): some expected sequence is missing
from the output, or not all pairwise comparisons are present. -/
inductive UsearchErr : Type where
  | missingSequences : UsearchErr
  | incompletePairs : UsearchErr
deriving DecidableEq

/-- Value of cell (x, y) of the distance matrix after the two vectorised
assignments `distmat[ii, jj] = dist` then `distmat[jj, ii] = dist` (with
`ii = pd.match(query, seqnames)`, `jj = pd.match(target, seqnames)`); the
second assignment overwrites the first on any cell written by both. -/
def matCell (seqnames : List String) (rows : List B6Row) (x y : Nat) : ℚ :=
  match rows.find? (fun r => seqnames.indexOf r.target = x ∧ seqnames.indexOf r.query = y) with
  | some r => b6Dist r
  | none =>
    match rows.find? (fun r => seqnames.indexOf r.query = x ∧ seqnames.indexOf r.target = y) with
    | some r => b6Dist r
    | none => 0

/-- The assembled square matrix (row-major list of rows). -/
def buildMat (seqnames : List String) (rows : List B6Row) : List (List ℚ) :=
  (List.range seqnames.length).map
    (fun x => (List.range seqnames.length).map (fun y => matCell seqnames rows x y))

/-- Embeds `filter_outliers.parse_usearch_allpairs(filename, seqnames)`:
de-duplicate rows per (query, target) pair keeping the longest alignment;
raise `UsearchError` when the name sets differ or when the number of
retained rows is not `n * (n - 1) / 2` (Python 2 integer division);
otherwise build the matrix. -/
def parse_usearch_allpairs (rows : List B6Row) (seqnames : List String) :
    Except UsearchErr (List (List ℚ)) :=
  let data := retainedRows rows
  if seqnames.toFinset ≠ (data.map B6Row.query).toFinset ∪ (data.map B6Row.target).toFinset
  then .error .missingSequences
  else if seqnames.length * (seqnames.length - 1) / 2 ≠ data.length
  then .error .incompletePairs
  else .ok (buildMat seqnames data)

/-! ### Cluster merging (`select.py` lines 162-223) -/

/-- State of the working dictionary `d` of `_merge_by_taxid`: the set of
cluster ids that are keys of `d`, and the component currently recorded for
each key (arbitrary for non-keys; it is initialised to the empty set and
only ever written for keys). -/
structure MergeState where
  dom : Finset ℕ
  comp : ℕ → Finset ℕ

/-- Embeds one iteration of the loop of `select._merge_by_taxid`: collect
the group's cluster ids together with every previously recorded component of
a member, then record this union as the component of each of its elements. -/
def mergeStep (st : MergeState) (p : ℕ × List ℕ) : MergeState :=
  let g : Finset ℕ := p.2.toFinset
  let s : Finset ℕ := g ∪ (g.filter (· ∈ st.dom)).biUnion st.comp
  ⟨st.dom ∪ s, fun c => if c ∈ s then s else st.comp c⟩

/-- The dictionary after processing all (tax_id, cluster_ids) pairs. -/
def mergeFold (gs : List (ℕ × List ℕ)) : MergeState :=
  gs.foldl mergeStep ⟨∅, fun _ => ∅⟩

/-- Embeds `select._merge_by_taxid(it)`: the distinct values of the final
dictionary (`frozenset(d.values())`). -/
def mergeByTaxid (gs : List (ℕ × List ℕ)) : Finset (Finset ℕ) :=
  (mergeFold gs).dom.image (mergeFold gs).comp

/-- The cluster database state seen by `merge_clusters`:
`cluster_sequences` rows (sequence_name, cluster_id), and the derived
best-hit relation (sequence_name, tax_id) obtained from
`best_hits INNER JOIN sequences USING(sequence_id)`. -/
structure ClusterDB where
  cluster_sequences : List (String × ℕ)
  best_hit_tax : List (String × ℕ)
deriving DecidableEq

/-- Modelled from the spec: the temporary table `tax_to_cluster`
(`SELECT DISTINCT tax_id, cluster_id FROM best_hits JOIN sequences JOIN
cluster_sequences`), i.e. the distinct (tax_id, cluster_id) pairs linked by
some sequence name.  The SQL engine itself is outside `src/`; this is the
standard relational reading of the query in `select._find_clusters_to_merge`. -/
def taxToCluster (db : ClusterDB) : Finset (ℕ × ℕ) :=
  (db.best_hit_tax.flatMap
    (fun p => db.cluster_sequences.filterMap
      (fun q => if q.1 = p.1 then some (p.2, q.2) else none))).toFinset

/-- Distinct cluster ids associated with one tax_id. -/
def clustersOfTax (db : ClusterDB) (t : ℕ) : Finset ℕ :=
  ((taxToCluster db).filter (fun p => p.1 = t)).image Prod.snd

/-- Ascending enumeration of a finite set of naturals (used where the SQL
orders rows, and where Python iterates a set in unspecified order; chosen
kernel-computable so concrete runs evaluate by `decide`). -/
def finsetAsc (s : Finset ℕ) : List ℕ :=
  (List.range ((s.max).getD 0 + 1)).filter (· ∈ s)

/-- Embeds `select._find_clusters_to_merge(con)`: for every tax_id whose
distinct cluster count exceeds one (the HAVING clause), yield the pair of
the tax_id and its cluster-id group, ordered by tax_id (ORDER BY). -/
def find_clusters_to_merge (db : ClusterDB) : List (ℕ × List ℕ) :=
  (finsetAsc ((taxToCluster db).image Prod.fst)).filterMap
    (fun t =>
      let cs := clustersOfTax db t
      if 1 < cs.card then some (t, finsetAsc cs) else none)

/-- Embeds the `executemany` for one merge group: for every non-canonical
member `i`, rewrite every row with `cluster_id = i` to the canonical id
(`first = min(merge_group)`). -/
def applyGroup (rows : List (String × ℕ)) (g : Finset ℕ) : List (String × ℕ) :=
  let first := (g.min).getD 0
  (finsetAsc (g.erase first)).foldl
    (fun rs i => rs.map (fun p => if p.2 = i then (p.1, first) else p)) rows

/-- The merge groups as a list, each distinct group once (Python iterates
over the `frozenset` of dictionary values in unspecified order; the net
effect is proved independent of this order). -/
def mergeGroupsList (gs : List (ℕ × List ℕ)) : List (Finset ℕ) :=
  ((finsetAsc (mergeFold gs).dom).map (mergeFold gs).comp).dedup

/-- Embeds `select.merge_clusters(con)`: compute the merge groups and apply
the updates of every group to the `cluster_sequences` table, inside one
transaction. -/
def merge_clusters (db : ClusterDB) : ClusterDB :=
  { db with cluster_sequences :=
      (mergeGroupsList (find_clusters_to_merge db)).foldl applyGroup db.cluster_sequences }

/-- Net effect of the sequence of group updates on one cluster-id value:
fold over the groups, replacing the value by the group's canonical
(minimum) id whenever the value lies in the group. -/
def canonFold (L : List (Finset ℕ)) (c : ℕ) : ℕ :=
  L.foldl (fun v g => if v ∈ g then (g.min).getD 0 else v) c

/-! ### Connectivity (spec-side notions for claims C2 and C3) -/

/-- Two cluster ids touch when some processed group contains both. -/
def touches (gs : List (ℕ × List ℕ)) (a b : ℕ) : Prop :=
  ∃ p ∈ gs, a ∈ p.2 ∧ b ∈ p.2

/-- Connectivity in the graph whose edges join cluster ids occurring in a
common group: the reflexive-transitive closure of `touches` (which is
symmetric, so this is the full equivalence reachability). -/
def connectedIds (gs : List (ℕ × List ℕ)) (a b : ℕ) : Prop :=
  Relation.ReflTransGen (touches gs) a b

/-- All cluster ids occurring in any group. -/
def idVertices (gs : List (ℕ × List ℕ)) : Finset ℕ :=
  gs.foldr (fun p acc => p.2.toFinset ∪ acc) ∅

/-- Invariant of the working dictionary of `_merge_by_taxid` after
processing the groups `gs`: keys are exactly the ids seen so far, every
key's component contains the key, stays inside the keys, is recorded
identically for all of its members, and holds exactly the ids connected to
the key through the processed groups. -/
structure MergeInv (gs : List (ℕ × List ℕ)) (st : MergeState) : Prop where
  self_mem : ∀ c ∈ st.dom, c ∈ st.comp c
  comp_sub : ∀ c ∈ st.dom, st.comp c ⊆ st.dom
  comp_eq : ∀ c ∈ st.dom, ∀ x ∈ st.comp c, st.comp x = st.comp c
  dom_eq : st.dom = idVertices gs
  comp_iff : ∀ a ∈ st.dom, ∀ b, (b ∈ st.comp a ↔ b ∈ st.dom ∧ connectedIds gs a b)

/-! ### Well-formedness of a populated taxonomy (spec section 3 invariants) -/

/-- Sequence ids attached anywhere below (and at) a node, in traversal
order. -/
def allSeqIdsOf (root : TaxNode) : List String :=
  root.subtree.flatMap TaxNode.sequence_ids

/-- Spec section 3 invariants of a populated taxonomy: unique tax_ids, each
sequence id attached at exactly one node (no duplicate seqinfo rows), all
node ranks drawn from the global rank order, and a child's rank strictly
deeper than its parent's. -/
structure WellFormedTax (ranks : List String) (root : TaxNode) : Prop where
  tid_nodup : (root.subtree.map TaxNode.tax_id).Nodup
  ids_nodup : (allSeqIdsOf root).Nodup
  ranks_mem : ∀ n ∈ root.subtree, n.rank ∈ ranks
  strict : ∀ p ∈ root.subtree, ∀ c ∈ p.children.toList,
    rankIdx ranks p.rank < rankIdx ranks c.rank

/-! ### Concrete fixtures used by counterexamples and witnesses -/

/-- A taxonomy whose only leaf holds a sequence but sits at rank `class`,
coarser than the index rank `order`: `find_nodes` selects nothing. -/
def c6CexTax : Taxonomy :=
  ⟨["root", "class", "order", "genus", "species"],
   .mk "1" "root" "r" [] (.cons (.mk "2" "class" "c" ["s1"] .nil) .nil)⟩

/-- A well-formed taxonomy with sequences only at leaves, leaf ranks at
species or strictly below the index rank `order`. -/
def c6WitTax : Taxonomy :=
  ⟨["root", "order", "genus", "species"],
   .mk "1" "root" "r" []
     (.cons (.mk "2" "genus" "g1" []
        (.cons (.mk "3" "species" "s1" ["x1"] .nil)
          (.cons (.mk "4" "species" "s2" ["x2"] .nil) .nil)))
       (.cons (.mk "5" "genus" "g2" ["x3"] .nil) .nil))⟩

/-- Two species nodes with one (distinct) sequence each; used with a failing
oracle for the fail-fast counterexample. -/
def schedTax : Taxonomy :=
  ⟨["root", "species"],
   .mk "1" "root" "r" []
     (.cons (.mk "A" "species" "specA" ["a"] .nil)
       (.cons (.mk "B" "species" "specB" ["b"] .nil) .nil))⟩

/-- Configuration dispatching a real job for every nonempty node
(minimum sequence count 1). -/
def schedCfg : FilterConfig := ⟨"species", 1, .keep, 0⟩

/-- An oracle failing on node A and succeeding on node B. -/
def schedOracle : FilterOracle := fun _ tid seqs =>
  if tid = "A" then .error (.external "boom")
  else .ok (seqs.map (fun s => ⟨s, some s, none, false, none⟩))

/-- The same sequence id attached at two distinct species nodes (duplicate
seqinfo rows); rare-taxon KEEP jobs duplicate it in the outcome. -/
def c5CexTax : Taxonomy :=
  ⟨["root", "species"],
   .mk "1" "root" "r" []
     (.cons (.mk "A" "species" "specA" ["x"] .nil)
       (.cons (.mk "B" "species" "specB" ["x"] .nil) .nil))⟩

/-- Default-like configuration: rare taxa (fewer than 5 sequences) are kept
via mock jobs. -/
def c5CexCfg : FilterConfig := ⟨"species", 5, .keep, 0⟩

/-- An oracle that always fails; dispatched mock jobs never consult it. -/
def failOracle : FilterOracle := fun _ _ _ => .error (.external "unused")

/-- A well-behaved oracle honouring the AlignAndDistance contract: one row
per input sequence. -/
def okOracle : FilterOracle := fun _ _ seqs =>
  .ok (seqs.map (fun s => ⟨s, some s, none, false, none⟩))

/-- Usearch output rows containing a self-alignment of sequence a: all three
(query, target) keys are distinct, the name sets match and the row count is
3 = 3 * 2 / 2, yet one retained row lies on the diagonal. -/
def c9CexRows : List B6Row :=
  [⟨"a", "b", 100, 10⟩, ⟨"b", "c", 100, 10⟩, ⟨"a", "a", 90, 10⟩]

/-- An id y attached at a genus node above the species filter rank, with a
single-sequence species below. -/
def c10WitTax : Taxonomy :=
  ⟨["root", "genus", "species"],
   .mk "1" "root" "r" []
     (.cons (.mk "2" "genus" "g1" ["y"]
        (.cons (.mk "3" "species" "s1" ["x1"] .nil) .nil)) .nil)⟩

/-- Species-level filtering with the rare-taxon KEEP policy and threshold 5. -/
def c10WitCfg : FilterConfig := ⟨"species", 5, .keep, 0⟩

/-! ## Lemmas on connectivity and the merge dictionary -/

theorem mem_idVertices {gs : List (ℕ × List ℕ)} {a : ℕ} :
    a ∈ idVertices gs ↔ ∃ p ∈ gs, a ∈ p.2 := by
  induction gs with
  | nil => simp [idVertices]
  | cons q qs ih =>
    simp only [idVertices, List.foldr_cons, Finset.mem_union, List.mem_toFinset] at *
    constructor
    · rintro (h | h)
      · exact ⟨q, by simp, h⟩
      · obtain ⟨p, hp, hap⟩ := ih.1 h
        exact ⟨p, by simp [hp], hap⟩
    · rintro ⟨p, hp, hap⟩
      rcases List.mem_cons.1 hp with rfl | hp
      · exact Or.inl hap
      · exact Or.inr (ih.2 ⟨p, hp, hap⟩)

theorem touches_symm (gs : List (ℕ × List ℕ)) : Symmetric (touches gs) := by
  rintro a b ⟨p, hp, ha, hb⟩
  exact ⟨p, hp, hb, ha⟩

theorem connectedIds_symm (gs : List (ℕ × List ℕ)) {a b : ℕ}
    (h : connectedIds gs a b) : connectedIds gs b a :=
  Relation.ReflTransGen.symmetric (touches_symm gs) h

theorem touches_mono {gs : List (ℕ × List ℕ)} {p : ℕ × List ℕ} {a b : ℕ}
    (h : touches gs a b) : touches (gs ++ [p]) a b := by
  obtain ⟨q, hq, ha, hb⟩ := h
  exact ⟨q, by simp [hq], ha, hb⟩

theorem connectedIds_mono {gs : List (ℕ × List ℕ)} {p : ℕ × List ℕ} {a b : ℕ}
    (h : connectedIds gs a b) : connectedIds (gs ++ [p]) a b :=
  Relation.ReflTransGen.mono (fun _ _ hxy => touches_mono hxy) h

theorem touches_append_iff {gs : List (ℕ × List ℕ)} {p : ℕ × List ℕ} {a b : ℕ} :
    touches (gs ++ [p]) a b ↔ touches gs a b ∨ (a ∈ p.2 ∧ b ∈ p.2) := by
  constructor
  · rintro ⟨q, hq, ha, hb⟩
    rcases List.mem_append.1 hq with hq | hq
    · exact Or.inl ⟨q, hq, ha, hb⟩
    · rcases List.mem_singleton.1 hq with rfl
      exact Or.inr ⟨ha, hb⟩
  · rintro (h | ⟨ha, hb⟩)
    · exact touches_mono h
    · exact ⟨p, by simp, ha, hb⟩

theorem touches_mem_left {gs : List (ℕ × List ℕ)} {a b : ℕ} (h : touches gs a b) :
    a ∈ idVertices gs := by
  obtain ⟨p, hp, ha, _⟩ := h
  exact mem_idVertices.2 ⟨p, hp, ha⟩

theorem mergeInv_nil : MergeInv [] ⟨∅, fun _ => ∅⟩ := by
  refine ⟨?_, ?_, ?_, ?_, ?_⟩ <;> simp [idVertices]

theorem mergeInv_step {gs : List (ℕ × List ℕ)} {st : MergeState} {p : ℕ × List ℕ}
    (inv : MergeInv gs st) : MergeInv (gs ++ [p]) (mergeStep st p) := by
  classical
  set g : Finset ℕ := p.2.toFinset with hg
  set s : Finset ℕ := g ∪ (g.filter (· ∈ st.dom)).biUnion st.comp with hs
  have hstep : mergeStep st p = ⟨st.dom ∪ s, fun c => if c ∈ s then s else st.comp c⟩ := rfl
  have hss : ∀ x ∈ s, x ∈ g ∨ ∃ e, e ∈ g ∧ e ∈ st.dom ∧ x ∈ st.comp e := by
    intro x hx
    rw [hs, Finset.mem_union, Finset.mem_biUnion] at hx
    rcases hx with hx | ⟨e, he, hxe⟩
    · exact Or.inl hx
    · rw [Finset.mem_filter] at he
      exact Or.inr ⟨e, he.1, he.2, hxe⟩
  have hgs : ∀ x ∈ g, x ∈ s := by
    intro x hx; rw [hs, Finset.mem_union]; exact Or.inl hx
  have hes : ∀ e, e ∈ g → e ∈ st.dom → st.comp e ⊆ s := by
    intro e heg hed x hxe
    rw [hs, Finset.mem_union, Finset.mem_biUnion]
    exact Or.inr ⟨e, Finset.mem_filter.2 ⟨heg, hed⟩, hxe⟩
  have hsdom : s ⊆ g ∪ st.dom := by
    intro x hx
    rcases hss x hx with hx | ⟨e, _, hed, hxe⟩
    · exact Finset.mem_union_left _ hx
    · exact Finset.mem_union_right _ (inv.comp_sub e hed hxe)
  have hcomps : ∀ x ∈ s, x ∈ st.dom → st.comp x ⊆ s := by
    intro x hx hxd
    rcases hss x hx with hxg | ⟨e, heg, hed, hxe⟩
    · exact hes x hxg hxd
    · rw [inv.comp_eq e hed x hxe]
      exact hes e heg hed
  have hdisj : ∀ c, c ∈ st.dom → c ∉ s → ∀ x ∈ st.comp c, x ∉ s := by
    intro c hcd hcs x hxc hxs
    have hxd : x ∈ st.dom := inv.comp_sub c hcd hxc
    have hcc : st.comp x = st.comp c := inv.comp_eq c hcd x hxc
    have : st.comp x ⊆ s := hcomps x hxs hxd
    exact hcs (this (hcc ▸ inv.self_mem c hcd : c ∈ st.comp x))
  have hpiv : ∀ x ∈ s, ∃ c ∈ g, connectedIds (gs ++ [p]) c x := by
    intro x hx
    rcases hss x hx with hxg | ⟨e, heg, hed, hxe⟩
    · exact ⟨x, hxg, Relation.ReflTransGen.refl⟩
    · have := ((inv.comp_iff e hed x).1 hxe).2
      exact ⟨e, heg, connectedIds_mono this⟩
  have hconn2 : ∀ x ∈ s, ∀ y ∈ s, connectedIds (gs ++ [p]) x y := by
    intro x hx y hy
    obtain ⟨cx, hcx, hconx⟩ := hpiv x hx
    obtain ⟨cy, hcy, hcony⟩ := hpiv y hy
    have hstep1 : connectedIds (gs ++ [p]) cx cy :=
      Relation.ReflTransGen.single ⟨p, by simp, List.mem_toFinset.1 hcx, List.mem_toFinset.1 hcy⟩
    exact ((connectedIds_symm _ hconx).trans hstep1).trans hcony
  have hclosed : ∀ x ∈ s, ∀ y, touches (gs ++ [p]) x y → y ∈ s := by
    intro x hx y hxy
    rcases touches_append_iff.1 hxy with hxy | ⟨_, hy2⟩
    · have hxd : x ∈ st.dom := inv.dom_eq ▸ touches_mem_left hxy
      have hyd : y ∈ st.dom := inv.dom_eq ▸ touches_mem_left (touches_symm gs hxy)
      have hyc : y ∈ st.comp x :=
        (inv.comp_iff x hxd y).2 ⟨hyd, Relation.ReflTransGen.single hxy⟩
      exact hcomps x hx hxd hyc
    · exact hgs y (List.mem_toFinset.2 hy2)
  rw [hstep]
  refine ⟨?_, ?_, ?_, ?_, ?_⟩
  · -- self_mem
    intro c hcd
    by_cases hcs : c ∈ s
    · simp [hcs]
    · have hcd0 : c ∈ st.dom := by
        rcases Finset.mem_union.1 hcd with h | h
        · exact h
        · exact absurd h hcs
      simpa [hcs] using inv.self_mem c hcd0
  · -- comp_sub
    intro c hcd x hx
    by_cases hcs : c ∈ s
    · simp only [hcs, if_pos] at hx
      exact Finset.mem_union_right _ hx
    · simp only [hcs, if_neg, if_false] at hx
      have hcd0 : c ∈ st.dom := by
        rcases Finset.mem_union.1 hcd with h | h
        · exact h
        · exact absurd h hcs
      exact Finset.mem_union_left _ (inv.comp_sub c hcd0 hx)
  · -- comp_eq
    intro c hcd x hx
    by_cases hcs : c ∈ s
    · simp only [hcs, if_pos] at hx
      simp [hcs, hx]
    · simp only [hcs, if_false] at hx
      have hcd0 : c ∈ st.dom := by
        rcases Finset.mem_union.1 hcd with h | h
        · exact h
        · exact absurd h hcs
      have hxs : x ∉ s := hdisj c hcd0 hcs x hx
      simp [hcs, hxs, inv.comp_eq c hcd0 x hx]
  · -- dom_eq
    have hds : st.dom ∪ s = st.dom ∪ g := by
      apply Finset.Subset.antisymm
      · exact Finset.union_subset (Finset.subset_union_left)
          (hsdom.trans (by rw [Finset.union_comm]))
      · exact Finset.union_subset (Finset.subset_union_left)
          (fun x hx => Finset.mem_union_right _ (hgs x hx))
    rw [hds]
    ext x
    rw [Finset.mem_union, mem_idVertices, inv.dom_eq, mem_idVertices, hg, List.mem_toFinset]
    constructor
    · rintro (⟨q, hq, hxq⟩ | hx)
      · exact ⟨q, by simp [hq], hxq⟩
      · exact ⟨p, by simp, hx⟩
    · rintro ⟨q, hq, hxq⟩
      rcases List.mem_append.1 hq with hq | hq
      · exact Or.inl ⟨q, hq, hxq⟩
      · rcases List.mem_singleton.1 hq with rfl
        exact Or.inr hxq
  · -- comp_iff
    intro a had b
    by_cases has : a ∈ s
    · simp only [has, if_pos]
      constructor
      · intro hb
        exact ⟨Finset.mem_union_right _ hb, hconn2 a has b hb⟩
      · rintro ⟨-, hconn⟩
        induction hconn with
        | refl => exact has
        | tail hcd step ih => exact hclosed _ ih _ step
    · have had0 : a ∈ st.dom := by
        rcases Finset.mem_union.1 had with h | h
        · exact h
        · exact absurd h has
      simp only [has, if_false]
      constructor
      · intro hb
        obtain ⟨hbd, hconn⟩ := (inv.comp_iff a had0 b).1 hb
        exact ⟨Finset.mem_union_left _ hbd, connectedIds_mono hconn⟩
      · rintro ⟨-, hconn⟩
        induction hconn with
        | refl => exact inv.self_mem a had0
        | @tail c d hcd step ih =>
          rcases touches_append_iff.1 step with hstep0 | ⟨hc2, -⟩
          · have hcd0 : c ∈ st.dom := inv.comp_sub a had0 ih
            have hdd : d ∈ st.dom := inv.dom_eq ▸ touches_mem_left (touches_symm gs hstep0)
            have : d ∈ st.comp c :=
              (inv.comp_iff c hcd0 d).2 ⟨hdd, Relation.ReflTransGen.single hstep0⟩
            rw [inv.comp_eq a had0 c ih] at this
            exact this
          · exact absurd (hgs c (List.mem_toFinset.2 hc2)) (hdisj a had0 has c ih)

theorem mergeInv_holds (gs : List (ℕ × List ℕ)) : MergeInv gs (mergeFold gs) := by
  induction gs using List.reverseRecOn with
  | nil => exact mergeInv_nil
  | append_singleton xs x ih =>
    have : mergeFold (xs ++ [x]) = mergeStep (mergeFold xs) x := by
      simp [mergeFold]
    rw [this]
    exact mergeInv_step ih

theorem mergeByTaxid_mem {gs : List (ℕ × List ℕ)} {s : Finset ℕ} :
    s ∈ mergeByTaxid gs ↔ ∃ a ∈ (mergeFold gs).dom, (mergeFold gs).comp a = s := by
  simp [mergeByTaxid, Finset.mem_image]

theorem mergeByTaxid_nonempty {gs : List (ℕ × List ℕ)} {s : Finset ℕ}
    (hs : s ∈ mergeByTaxid gs) : s.Nonempty := by
  obtain ⟨a, ha, rfl⟩ := mergeByTaxid_mem.1 hs
  exact ⟨a, (mergeInv_holds gs).self_mem a ha⟩

theorem mergeByTaxid_union (gs : List (ℕ × List ℕ)) :
    (mergeByTaxid gs).biUnion id = idVertices gs := by
  have inv := mergeInv_holds gs
  apply Finset.Subset.antisymm
  · intro x hx
    rw [Finset.mem_biUnion] at hx
    obtain ⟨s, hs, hxs⟩ := hx
    obtain ⟨a, ha, rfl⟩ := mergeByTaxid_mem.1 hs
    exact inv.dom_eq ▸ inv.comp_sub a ha hxs
  · intro x hx
    rw [Finset.mem_biUnion]
    have hxd : x ∈ (mergeFold gs).dom := inv.dom_eq ▸ hx
    exact ⟨(mergeFold gs).comp x, mergeByTaxid_mem.2 ⟨x, hxd, rfl⟩, inv.self_mem x hxd⟩

theorem mergeByTaxid_disjoint {gs : List (ℕ × List ℕ)} {s₁ s₂ : Finset ℕ}
    (h₁ : s₁ ∈ mergeByTaxid gs) (h₂ : s₂ ∈ mergeByTaxid gs) (hne : s₁ ≠ s₂) :
    Disjoint s₁ s₂ := by
  have inv := mergeInv_holds gs
  obtain ⟨a, ha, rfl⟩ := mergeByTaxid_mem.1 h₁
  obtain ⟨b, hb, rfl⟩ := mergeByTaxid_mem.1 h₂
  rw [Finset.disjoint_left]
  intro x hxa hxb
  exact hne ((inv.comp_eq a ha x hxa).symm.trans (inv.comp_eq b hb x hxb))

theorem mergeByTaxid_block_iff {gs : List (ℕ × List ℕ)} {s : Finset ℕ}
    (hs : s ∈ mergeByTaxid gs) {a : ℕ} (ha : a ∈ s) (b : ℕ) :
    b ∈ s ↔ b ∈ idVertices gs ∧ connectedIds gs a b := by
  have inv := mergeInv_holds gs
  obtain ⟨c, hc, rfl⟩ := mergeByTaxid_mem.1 hs
  have had : a ∈ (mergeFold gs).dom := inv.comp_sub c hc ha
  rw [← inv.comp_eq c hc a ha, inv.comp_iff a had b, inv.dom_eq]

theorem idVertices_perm {gs gs₂ : List (ℕ × List ℕ)} (h : gs.Perm gs₂) :
    idVertices gs = idVertices gs₂ := by
  ext x
  rw [mem_idVertices, mem_idVertices]
  constructor
  · rintro ⟨p, hp, hxp⟩
    exact ⟨p, h.mem_iff.1 hp, hxp⟩
  · rintro ⟨p, hp, hxp⟩
    exact ⟨p, h.mem_iff.2 hp, hxp⟩

theorem connectedIds_perm {gs gs₂ : List (ℕ × List ℕ)} (h : gs.Perm gs₂) {a b : ℕ}
    (hc : connectedIds gs a b) : connectedIds gs₂ a b := by
  refine Relation.ReflTransGen.mono (fun x y hxy => ?_) hc
  obtain ⟨p, hp, hx, hy⟩ := hxy
  exact ⟨p, h.mem_iff.1 hp, hx, hy⟩

theorem mergeByTaxid_perm {gs gs₂ : List (ℕ × List ℕ)} (h : gs.Perm gs₂) :
    mergeByTaxid gs = mergeByTaxid gs₂ := by
  have inv := mergeInv_holds gs
  have inv₂ := mergeInv_holds gs₂
  have hdom : (mergeFold gs).dom = (mergeFold gs₂).dom := by
    rw [inv.dom_eq, inv₂.dom_eq]
    exact idVertices_perm h
  have hcomp : ∀ a ∈ (mergeFold gs).dom, (mergeFold gs).comp a = (mergeFold gs₂).comp a := by
    intro a ha
    ext b
    rw [inv.comp_iff a ha b, inv₂.comp_iff a (hdom ▸ ha) b, hdom]
    constructor
    · rintro ⟨hb, hc⟩
      exact ⟨hb, connectedIds_perm h hc⟩
    · rintro ⟨hb, hc⟩
      exact ⟨hb, connectedIds_perm h.symm hc⟩
  ext s
  rw [mergeByTaxid_mem, mergeByTaxid_mem]
  constructor
  · rintro ⟨a, ha, rfl⟩
    exact ⟨a, hdom ▸ ha, (hcomp a ha).symm⟩
  · rintro ⟨a, ha, rfl⟩
    exact ⟨a, hdom ▸ ha, hcomp a (hdom ▸ ha)⟩

/-- C2: for every finite sequence of (tax_id, cluster-id group) pairs, the
family returned by `_merge_by_taxid` is a partition of all cluster ids
occurring in any group (blocks are nonempty, cover the ids, and are pairwise
disjoint), each block is exactly the connected component — under the
"occurs in a common group" graph — of each of its members, and the result
is the same for every processing order of the groups. -/
theorem claim_C2 (gs gs₂ : List (ℕ × List ℕ)) (hperm : gs.Perm gs₂) :
    (∀ s ∈ mergeByTaxid gs, s.Nonempty) ∧
    (mergeByTaxid gs).biUnion id = idVertices gs ∧
    (∀ s₁ ∈ mergeByTaxid gs, ∀ s₂ ∈ mergeByTaxid gs, s₁ ≠ s₂ → Disjoint s₁ s₂) ∧
    (∀ s ∈ mergeByTaxid gs, ∀ a ∈ s, ∀ b,
      (b ∈ s ↔ b ∈ idVertices gs ∧ connectedIds gs a b)) ∧
    mergeByTaxid gs = mergeByTaxid gs₂ :=
  ⟨fun _ hs => mergeByTaxid_nonempty hs,
   mergeByTaxid_union gs,
   fun _ h₁ _ h₂ hne => mergeByTaxid_disjoint h₁ h₂ hne,
   fun _ hs _ ha b => mergeByTaxid_block_iff hs ha b,
   mergeByTaxid_perm hperm⟩

/-- Witness for C2 at the transitivity fixture of spec section 8: groups
sharing cluster 2 merge into a single component regardless of order. -/
theorem claim_C2_witness :
    mergeByTaxid [(10, [1, 2]), (20, [2, 3])] = mergeByTaxid [(20, [2, 3]), (10, [1, 2])] ∧
    mergeByTaxid [(10, [1, 2]), (20, [2, 3])] = {({1, 2, 3} : Finset ℕ)} :=
  ⟨(claim_C2 [(10, [1, 2]), (20, [2, 3])] [(20, [2, 3]), (10, [1, 2])]
      (by decide)).2.2.2.2,
   by decide⟩

/-! ## Net effect of the cluster-table updates (claim C3) -/

theorem mem_finsetAsc {s : Finset ℕ} {x : ℕ} : x ∈ finsetAsc s ↔ x ∈ s := by
  unfold finsetAsc
  rw [List.mem_filter]
  simp only [List.mem_range, decide_eq_true_eq]
  constructor
  · rintro ⟨-, h⟩
    exact h
  · intro h
    refine ⟨?_, h⟩
    have hle := Finset.le_max h
    cases hmax : s.max with
    | bot =>
      rw [hmax] at hle
      exact absurd hle (by simp)
    | coe m =>
      rw [hmax] at hle
      have hxm : x ≤ m := by exact_mod_cast hle
      simp only [hmax, Option.getD]
      omega

theorem finMin_mem {g : Finset ℕ} (h : g.Nonempty) : (g.min).getD 0 ∈ g := by
  have hc : ((g.min' h : ℕ) : WithBot ℕ) = g.min := Finset.coe_min' h
  rw [← hc]
  simpa using Finset.min'_mem g h

theorem rewriteFold_eq (rows : List (String × ℕ)) (first : ℕ) (l : List ℕ)
    (hf : first ∉ l) :
    l.foldl (fun rs i => rs.map (fun p => if p.2 = i then (p.1, first) else p)) rows
      = rows.map (fun p => if p.2 ∈ l then (p.1, first) else p) := by
  induction l generalizing rows with
  | nil =>
    simp
  | cons i l ih =>
    have hf' : first ∉ l := fun h => hf (List.mem_cons_of_mem i h)
    rw [List.foldl_cons, ih _ hf', List.map_map]
    apply List.map_congr_left
    intro p _
    simp only [Function.comp_apply]
    by_cases hpi : p.2 = i
    · simp [hpi, hf']
    · simp [hpi]

theorem applyGroup_eq (rows : List (String × ℕ)) (g : Finset ℕ) (hne : g.Nonempty) :
    applyGroup rows g
      = rows.map (fun p => if p.2 ∈ g then (p.1, (g.min).getD 0) else p) := by
  unfold applyGroup
  set first := (g.min).getD 0 with hfirst
  have hf : first ∉ finsetAsc (g.erase first) := by
    rw [mem_finsetAsc]
    exact Finset.not_mem_erase first g
  rw [rewriteFold_eq rows first _ hf]
  apply List.map_congr_left
  intro p _
  have hmem : first ∈ g := finMin_mem hne
  obtain ⟨a, b⟩ := p
  simp only [mem_finsetAsc, Finset.mem_erase]
  by_cases hpf : b = first
  · subst hpf
    simp [hmem]
  · by_cases hpg : b ∈ g
    · simp [hpf, hpg]
    · simp [hpf, hpg]

theorem applyMerges_eq (L : List (Finset ℕ)) (rows : List (String × ℕ))
    (hne : ∀ g ∈ L, g.Nonempty) :
    L.foldl applyGroup rows = rows.map (fun p => (p.1, canonFold L p.2)) := by
  induction L generalizing rows with
  | nil =>
    simp [canonFold]
  | cons g L ih =>
    have hgne : g.Nonempty := hne g (by simp)
    have hLne : ∀ g' ∈ L, g'.Nonempty := fun g' h => hne g' (List.mem_cons_of_mem g h)
    rw [List.foldl_cons, ih _ hLne, applyGroup_eq rows g hgne, List.map_map]
    apply List.map_congr_left
    intro p _
    simp only [Function.comp_apply, canonFold, List.foldl_cons]
    by_cases hpg : p.2 ∈ g
    · simp [hpg]
    · simp [hpg]

theorem canonFold_not_mem {L : List (Finset ℕ)} {c : ℕ} (h : ∀ g ∈ L, c ∉ g) :
    canonFold L c = c := by
  induction L with
  | nil => rfl
  | cons g L ih =>
    have hcg : c ∉ g := h g (by simp)
    simp only [canonFold, List.foldl_cons, hcg, if_false]
    exact ih (fun g' hg' => h g' (List.mem_cons_of_mem g hg'))

theorem canonFold_mem {L : List (Finset ℕ)} (hpw : L.Pairwise Disjoint)
    {g : Finset ℕ} (hg : g ∈ L) {c : ℕ} (hc : c ∈ g) (hgne : g.Nonempty) :
    canonFold L c = (g.min).getD 0 := by
  induction L with
  | nil => exact absurd hg (List.not_mem_nil g)
  | cons g₀ L ih =>
    have hd : ∀ g' ∈ L, Disjoint g₀ g' := (List.pairwise_cons.1 hpw).1
    rcases List.mem_cons.1 hg with rfl | hgL
    · simp only [canonFold, List.foldl_cons, hc, if_true]
      have : ∀ g' ∈ L, (g.min).getD 0 ∉ g' := by
        intro g' hg' hmem
        exact (Finset.disjoint_left.1 (hd g' hg')) (finMin_mem hgne) hmem
      exact canonFold_not_mem this
    · have hcg₀ : c ∉ g₀ :=
        fun hmem => (Finset.disjoint_left.1 (hd g hgL)) hmem hc
      simp only [canonFold, List.foldl_cons, hcg₀, if_false]
      exact ih (List.pairwise_cons.1 hpw).2 hgL

theorem mem_mergeGroupsList {gs : List (ℕ × List ℕ)} {s : Finset ℕ} :
    s ∈ mergeGroupsList gs ↔ s ∈ mergeByTaxid gs := by
  unfold mergeGroupsList
  rw [List.mem_dedup, List.mem_map, mergeByTaxid_mem]
  constructor
  · rintro ⟨a, ha, rfl⟩
    exact ⟨a, mem_finsetAsc.1 ha, rfl⟩
  · rintro ⟨a, ha, rfl⟩
    exact ⟨a, mem_finsetAsc.2 ha, rfl⟩

theorem mergeGroupsList_nodup (gs : List (ℕ × List ℕ)) : (mergeGroupsList gs).Nodup :=
  List.nodup_dedup _

theorem mergeGroupsList_pairwiseDisjoint (gs : List (ℕ × List ℕ)) :
    (mergeGroupsList gs).Pairwise Disjoint := by
  refine (mergeGroupsList_nodup gs).pairwise_of_forall_ne ?_
  intro a ha b hb hne
  exact mergeByTaxid_disjoint (mem_mergeGroupsList.1 ha) (mem_mergeGroupsList.1 hb) hne

theorem merge_clusters_rows (db : ClusterDB) :
    (merge_clusters db).cluster_sequences
      = db.cluster_sequences.map
          (fun p => (p.1, canonFold (mergeGroupsList (find_clusters_to_merge db)) p.2)) := by
  unfold merge_clusters
  exact applyMerges_eq _ _
    (fun g hg => mergeByTaxid_nonempty (mem_mergeGroupsList.1 hg))

theorem merge_clusters_bht (db : ClusterDB) :
    (merge_clusters db).best_hit_tax = db.best_hit_tax := rfl

theorem mem_taxToCluster {db : ClusterDB} {t c : ℕ} :
    (t, c) ∈ taxToCluster db
      ↔ ∃ sname, (sname, t) ∈ db.best_hit_tax ∧ (sname, c) ∈ db.cluster_sequences := by
  unfold taxToCluster
  rw [List.mem_toFinset, List.mem_flatMap]
  constructor
  · rintro ⟨p, hp, hc⟩
    rw [List.mem_filterMap] at hc
    obtain ⟨q, hq, hqe⟩ := hc
    by_cases hqp : q.1 = p.1
    · rw [if_pos hqp] at hqe
      have hpair := Option.some.inj hqe
      have ht : p.2 = t := congrArg Prod.fst hpair
      have hc : q.2 = c := congrArg Prod.snd hpair
      refine ⟨p.1, ?_, ?_⟩
      · rw [← ht, Prod.mk.eta]
        exact hp
      · rw [← hc, ← hqp, Prod.mk.eta]
        exact hq
    · rw [if_neg hqp] at hqe
      exact absurd hqe (by simp)
  · rintro ⟨sname, hbt, hcs⟩
    refine ⟨(sname, t), hbt, ?_⟩
    rw [List.mem_filterMap]
    exact ⟨(sname, c), hcs, by simp⟩

theorem mem_clustersOfTax {db : ClusterDB} {t c : ℕ} :
    c ∈ clustersOfTax db t ↔ (t, c) ∈ taxToCluster db := by
  unfold clustersOfTax
  rw [Finset.mem_image]
  constructor
  · rintro ⟨p, hp, rfl⟩
    rw [Finset.mem_filter] at hp
    obtain ⟨hp, ht⟩ := hp
    rwa [← ht, Prod.mk.eta]
  · intro h
    exact ⟨(t, c), Finset.mem_filter.2 ⟨h, rfl⟩, rfl⟩

theorem clustersOfTax_merged (db : ClusterDB) (t : ℕ) :
    clustersOfTax (merge_clusters db) t
      = (clustersOfTax db t).image
          (canonFold (mergeGroupsList (find_clusters_to_merge db))) := by
  ext c
  rw [mem_clustersOfTax, Finset.mem_image]
  constructor
  · intro h
    rw [mem_taxToCluster] at h
    obtain ⟨sname, hbt, hcs⟩ := h
    rw [merge_clusters_bht] at hbt
    rw [merge_clusters_rows, List.mem_map] at hcs
    obtain ⟨p, hp, hpe⟩ := hcs
    have h1 : p.1 = sname := congrArg Prod.fst hpe
    have h2 : canonFold (mergeGroupsList (find_clusters_to_merge db)) p.2 = c :=
      congrArg Prod.snd hpe
    refine ⟨p.2, mem_clustersOfTax.2 (mem_taxToCluster.2 ⟨sname, hbt, ?_⟩), h2⟩
    rw [← h1, Prod.mk.eta]
    exact hp
  · rintro ⟨c₀, hc₀, rfl⟩
    rw [mem_clustersOfTax, mem_taxToCluster] at hc₀
    obtain ⟨sname, hbt, hcs⟩ := hc₀
    rw [mem_taxToCluster, merge_clusters_bht, merge_clusters_rows]
    refine ⟨sname, hbt, ?_⟩
    rw [List.mem_map]
    exact ⟨(sname, c₀), hcs, rfl⟩

theorem group_mem_find_clusters {db : ClusterDB} {t : ℕ}
    (h : 1 < (clustersOfTax db t).card) :
    (t, finsetAsc (clustersOfTax db t)) ∈ find_clusters_to_merge db := by
  unfold find_clusters_to_merge
  rw [List.mem_filterMap]
  refine ⟨t, ?_, by rw [if_pos h]⟩
  rw [mem_finsetAsc, Finset.mem_image]
  have hne : (clustersOfTax db t).Nonempty := Finset.card_pos.1 (by omega)
  obtain ⟨c, hc⟩ := hne
  rw [mem_clustersOfTax] at hc
  exact ⟨(t, c), hc, rfl⟩

theorem canonFold_collapse {gs : List (ℕ × List ℕ)} {l : List ℕ} {t : ℕ}
    (hg : (t, l) ∈ gs) {a b : ℕ} (ha : a ∈ l) (hb : b ∈ l) :
    canonFold (mergeGroupsList gs) a = canonFold (mergeGroupsList gs) b := by
  have inv := mergeInv_holds gs
  have hav : a ∈ idVertices gs := mem_idVertices.2 ⟨(t, l), hg, ha⟩
  have hbv : b ∈ idVertices gs := mem_idVertices.2 ⟨(t, l), hg, hb⟩
  have had : a ∈ (mergeFold gs).dom := inv.dom_eq ▸ hav
  have hblock : (mergeFold gs).comp a ∈ mergeByTaxid gs := mergeByTaxid_mem.2 ⟨a, had, rfl⟩
  have haa : a ∈ (mergeFold gs).comp a := inv.self_mem a had
  have hconn : connectedIds gs a b := Relation.ReflTransGen.single ⟨(t, l), hg, ha, hb⟩
  have hba : b ∈ (mergeFold gs).comp a :=
    (mergeByTaxid_block_iff hblock haa b).2 ⟨hbv, hconn⟩
  have hgin : (mergeFold gs).comp a ∈ mergeGroupsList gs := mem_mergeGroupsList.2 hblock
  have hne : ((mergeFold gs).comp a).Nonempty := ⟨a, haa⟩
  rw [canonFold_mem (mergeGroupsList_pairwiseDisjoint gs) hgin haa hne,
    canonFold_mem (mergeGroupsList_pairwiseDisjoint gs) hgin hba hne]

theorem merged_card_le_one (db : ClusterDB) (t : ℕ) :
    (clustersOfTax (merge_clusters db) t).card ≤ 1 := by
  rw [clustersOfTax_merged]
  by_cases h : 1 < (clustersOfTax db t).card
  · rw [Finset.card_le_one]
    rintro x hx y hy
    rw [Finset.mem_image] at hx hy
    obtain ⟨cx, hcx, rfl⟩ := hx
    obtain ⟨cy, hcy, rfl⟩ := hy
    exact canonFold_collapse (group_mem_find_clusters h)
      (mem_finsetAsc.2 (mem_clustersOfTax.2 (mem_clustersOfTax.1 hcx)))
      (mem_finsetAsc.2 (mem_clustersOfTax.2 (mem_clustersOfTax.1 hcy)))
  · calc (Finset.image _ (clustersOfTax db t)).card
        ≤ (clustersOfTax db t).card := Finset.card_image_le
      _ ≤ 1 := by omega

theorem find_clusters_merged_nil (db : ClusterDB) :
    find_clusters_to_merge (merge_clusters db) = [] := by
  unfold find_clusters_to_merge
  rw [List.filterMap_eq_nil_iff]
  intro t ht
  have := merged_card_le_one db t
  rw [if_neg (by omega)]

theorem merge_clusters_idem (db : ClusterDB) :
    merge_clusters (merge_clusters db) = merge_clusters db := by
  have h0 : mergeGroupsList (find_clusters_to_merge (merge_clusters db)) = [] := by
    rw [find_clusters_merged_nil]
    rfl
  show ClusterDB.mk _ _ = _
  rw [h0]
  rfl

/-- C3: running `merge_clusters` a second time finds no tax_id whose
sequences span more than one distinct cluster id (every tax_id has at most
one cluster after the first run, so `_find_clusters_to_merge` yields
nothing), and consequently the second run performs zero updates and leaves
the cluster table unchanged. -/
theorem claim_C3 (db : ClusterDB) :
    (∀ t, (clustersOfTax (merge_clusters db) t).card ≤ 1) ∧
    find_clusters_to_merge (merge_clusters db) = [] ∧
    merge_clusters (merge_clusters db) = merge_clusters db :=
  ⟨fun t => merged_card_le_one db t, find_clusters_merged_nil db, merge_clusters_idem db⟩

/-! ## Structural lemmas on the taxonomy tree -/

theorem taxNode_forest_ind {P : TaxNode → Prop} {Q : TaxForest → Prop}
    (hnode : ∀ t r nm ids cs, Q cs → P (.mk t r nm ids cs))
    (hnil : Q .nil) (hcons : ∀ n f, P n → Q f → Q (.cons n f)) :
    (∀ n, P n) ∧ (∀ f, Q f) :=
  ⟨fun n => @TaxNode.rec P Q hnode hnil hcons n,
   fun f => @TaxForest.rec P Q hnode hnil hcons f⟩

theorem subtree_mk (t r nm : String) (ids : List String) (cs : TaxForest) :
    (TaxNode.mk t r nm ids cs).subtree
      = TaxNode.mk t r nm ids cs :: TaxForest.subtreeF cs := rfl

theorem self_mem_subtree (n : TaxNode) : n ∈ n.subtree := by
  cases n with
  | mk t r nm ids cs => exact List.mem_cons_self _ _

theorem mem_subtreeF {f : TaxForest} {m : TaxNode} :
    m ∈ f.subtreeF ↔ ∃ c ∈ f.toList, m ∈ c.subtree := by
  have main := @taxNode_forest_ind (fun _ => True)
    (fun f => ∀ m : TaxNode, m ∈ f.subtreeF ↔ ∃ c ∈ f.toList, m ∈ c.subtree)
    (fun _ _ _ _ _ _ => trivial)
    (by intro m; simp [TaxForest.subtreeF, TaxForest.toList])
    ?_
  · exact main.2 f m
  · intro c cs _ ih m
    simp only [TaxForest.subtreeF, TaxForest.toList, List.mem_append, List.mem_cons, ih]
    constructor
    · rintro (h | ⟨c₂, hc₂, hm⟩)
      · exact ⟨c, Or.inl rfl, h⟩
      · exact ⟨c₂, Or.inr hc₂, hm⟩
    · rintro ⟨c₂, hc₂ | hc₂, hm⟩
      · exact Or.inl (hc₂ ▸ hm)
      · exact Or.inr ⟨c₂, hc₂, hm⟩

theorem subtree_trans :
    (∀ n : TaxNode, ∀ m ∈ n.subtree, ∀ k ∈ m.subtree, k ∈ n.subtree) ∧
    (∀ f : TaxForest, ∀ m ∈ f.subtreeF, ∀ k ∈ m.subtree, k ∈ f.subtreeF) := by
  refine taxNode_forest_ind ?_ ?_ ?_
  · intro t r nm ids cs ihf m hm k hk
    rw [subtree_mk] at hm ⊢
    rcases List.mem_cons.1 hm with rfl | hm
    · rw [subtree_mk] at hk
      exact hk
    · exact List.mem_cons_of_mem _ (ihf m hm k hk)
  · intro m hm
    cases hm
  · intro c f ihc ihf m hm k hk
    simp only [TaxForest.subtreeF, List.mem_append] at hm ⊢
    rcases hm with hm | hm
    · exact Or.inl (ihc m hm k hk)
    · exact Or.inr (ihf m hm k hk)

theorem child_mem_subtree {n : TaxNode} {c : TaxNode} (hc : c ∈ n.children.toList) :
    c ∈ n.subtree := by
  cases n with
  | mk t r nm ids cs =>
    rw [subtree_mk]
    exact List.mem_cons_of_mem _
      (mem_subtreeF.2 ⟨c, hc, self_mem_subtree c⟩)

theorem nodup_flatMap_unique {α β : Type} [DecidableEq β] {l : List α} {f : α → List β}
    (h : (l.flatMap f).Nodup) {a b : α} (ha : a ∈ l) (hb : b ∈ l) {x : β}
    (hxa : x ∈ f a) (hxb : x ∈ f b) : a = b := by
  induction l with
  | nil => cases ha
  | cons c l ih =>
    rw [List.flatMap_cons, List.nodup_append] at h
    obtain ⟨h1, h2, hdis⟩ := h
    rcases List.mem_cons.1 ha with rfl | ha2
    · rcases List.mem_cons.1 hb with rfl | hb2
      · rfl
      · exact (hdis hxa (List.mem_flatMap.2 ⟨b, hb2, hxb⟩)).elim
    · rcases List.mem_cons.1 hb with rfl | hb2
      · exact (hdis hxb (List.mem_flatMap.2 ⟨a, ha2, hxa⟩)).elim
      · exact ih h2 ha2 hb2

theorem rank_strict_subtree {ranks : List String} {root : TaxNode}
    (hstrict : ∀ p ∈ root.subtree, ∀ c ∈ p.children.toList,
      rankIdx ranks p.rank < rankIdx ranks c.rank) :
    ∀ m ∈ root.subtree, ∀ k ∈ m.subtree,
      k = m ∨ rankIdx ranks m.rank < rankIdx ranks k.rank := by
  have main :
      (∀ n : TaxNode, n ∈ root.subtree → ∀ k ∈ n.subtree,
        k = n ∨ rankIdx ranks n.rank < rankIdx ranks k.rank) ∧
      (∀ f : TaxForest, (∀ c ∈ f.toList, c ∈ root.subtree) → ∀ k ∈ f.subtreeF,
        ∃ c ∈ f.toList, k = c ∨ rankIdx ranks c.rank < rankIdx ranks k.rank) := by
    refine taxNode_forest_ind ?_ ?_ ?_
    · intro t r nm ids cs ihf hmem k hk
      rw [subtree_mk] at hk
      rcases List.mem_cons.1 hk with rfl | hk
      · exact Or.inl rfl
      · have hch : ∀ c ∈ (TaxNode.mk t r nm ids cs).children.toList, c ∈ root.subtree :=
          fun c hc => subtree_trans.1 root _ hmem c (child_mem_subtree hc)
        obtain ⟨c, hc, hkc⟩ := ihf hch k hk
        have hrc : rankIdx ranks (TaxNode.mk t r nm ids cs).rank < rankIdx ranks c.rank :=
          hstrict _ hmem c hc
        rcases hkc with rfl | hkc
        · exact Or.inr hrc
        · exact Or.inr (hrc.trans hkc)
    · intro _ k hk
      cases hk
    · intro c f ihc ihf hmem k hk
      simp only [TaxForest.subtreeF, List.mem_append] at hk
      have hcr : c ∈ root.subtree := hmem c (by simp [TaxForest.toList])
      rcases hk with hk | hk
      · refine ⟨c, by simp [TaxForest.toList], ?_⟩
        exact ihc hcr k hk
      · obtain ⟨c₂, hc₂, h⟩ := ihf (fun c₂ hc₂ => hmem c₂ (by simp [TaxForest.toList, hc₂])) k hk
        exact ⟨c₂, by simp [TaxForest.toList, hc₂], h⟩
  exact main.1

/-! ## Claim C7: the traversal policy of `find_nodes` -/

theorem innerSel_unfold (ranks : List String) (index_rank want_rank : String)
    (t r nm : String) (ids : List String) (cs : TaxForest) :
    innerSel ranks index_rank want_rank (.mk t r nm ids cs)
      = if r = want_rank ∧ anySeqBelow (.mk t r nm ids cs) then [.mk t r nm ids cs]
        else if (innerSelF ranks index_rank want_rank cs).isEmpty then
          if anySeqBelow (.mk t r nm ids cs) ∧ ¬strContainsBelow r = true ∧
              rankIdx ranks index_rank < rankIdx ranks r
          then [.mk t r nm ids cs] else []
        else innerSelF ranks index_rank want_rank cs := by
  rw [innerSel]

/-- C7: the three-way policy of `find_nodes` at every visited node N, with
both ranks drawn from the taxonomy's rank order.  If N has the target rank
and its subtree holds sequences, exactly N is yielded (so no descendant of
N is yielded); otherwise, a non-empty concatenation of the children's
results, in declared child order, is yielded as is; otherwise N itself is
yielded exactly when its subtree holds sequences, its rank label does not
contain the marker "below", and its rank lies strictly deeper than
`index_rank` in the global rank order. -/
theorem claim_C7 (ranks : List String) (index_rank want_rank : String) (N : TaxNode)
    (hir : index_rank ∈ ranks) (hnr : N.rank ∈ ranks) :
    (N.rank = want_rank ∧ anySeqBelow N = true →
      innerSel ranks index_rank want_rank N = [N]) ∧
    (¬(N.rank = want_rank ∧ anySeqBelow N = true) →
      innerSelF ranks index_rank want_rank N.children ≠ [] →
      innerSel ranks index_rank want_rank N
        = innerSelF ranks index_rank want_rank N.children) ∧
    (¬(N.rank = want_rank ∧ anySeqBelow N = true) →
      innerSelF ranks index_rank want_rank N.children = [] →
      innerSel ranks index_rank want_rank N
        = (if anySeqBelow N = true ∧ strContainsBelow N.rank = false ∧
              rankIdx ranks index_rank < rankIdx ranks N.rank
           then [N] else [])) := by
  obtain ⟨t, r, nm, ids, cs⟩ := N
  rw [TaxNode.rank, TaxNode.children]
  refine ⟨?_, ?_, ?_⟩
  · intro h
    rw [innerSel_unfold, if_pos h]
  · intro h hne
    rw [innerSel_unfold, if_neg h, if_neg]
    rw [List.isEmpty_iff]
    exact hne
  · intro h he
    rw [innerSel_unfold, if_neg h, if_pos (List.isEmpty_iff.2 he)]
    by_cases hc : anySeqBelow (.mk t r nm ids cs) = true ∧ ¬strContainsBelow r = true ∧
        rankIdx ranks index_rank < rankIdx ranks r
    · rw [if_pos hc, if_pos]
      exact ⟨hc.1, Bool.not_eq_true _ ▸ hc.2.1, hc.2.2⟩
    · rw [if_neg hc, if_neg]
      intro hc₂
      exact hc ⟨hc₂.1, Bool.not_eq_true _ ▸ hc₂.2.1, hc₂.2.2⟩

/-- Witness for C7 on the fixture of the repository's own
`test_subcommand_refpkg_build.py`: the species node s3 (with sequences) is
selected by the first rule; the root passes through its children's results;
a species leaf without sequences falls through all three rules and yields
nothing. -/
theorem claim_C7_witness :
    innerSel ["root", "class", "genus", "species"] "class" "species"
        (.mk "s3" "species" "s3" ["s3", "s4"] .nil)
      = [.mk "s3" "species" "s3" ["s3", "s4"] .nil] ∧
    innerSel ["root", "class", "genus", "species"] "class" "species"
        (.mk "s4" "species" "s4" [] .nil) = [] := by
  constructor
  · exact (claim_C7 ["root", "class", "genus", "species"] "class" "species"
      (.mk "s3" "species" "s3" ["s3", "s4"] .nil) (by decide) (by decide)).1
      (by constructor <;> decide)
  · have h3 := (claim_C7 ["root", "class", "genus", "species"] "class" "species"
      (.mk "s4" "species" "s4" [] .nil) (by decide) (by decide)).2.2
      (by decide) (by decide)
    rw [h3, if_neg]
    decide

/-! ## Claim C6: coverage and disjointness of `find_nodes` -/

theorem anySeqBelow_iff {n : TaxNode} :
    anySeqBelow n = true ↔ ∃ m ∈ n.subtree, m.sequence_ids ≠ [] := by
  unfold anySeqBelow
  rw [List.any_eq_true]
  constructor
  · rintro ⟨m, hm, hb⟩
    rw [Bool.not_eq_eq_eq_not, Bool.not_true, List.isEmpty_eq_false] at hb
    exact ⟨m, hm, hb⟩
  · rintro ⟨m, hm, hb⟩
    refine ⟨m, hm, ?_⟩
    rw [Bool.not_eq_eq_eq_not, Bool.not_true, List.isEmpty_eq_false]
    exact hb

theorem seqIds_mk (t r nm : String) (ids : List String) (cs : TaxForest) :
    (TaxNode.mk t r nm ids cs).seqIds
      = ids ++ (TaxForest.subtreeF cs).flatMap TaxNode.sequence_ids := by
  rw [TaxNode.seqIds, subtree_mk, List.flatMap_cons]
  rfl

theorem innerSel_coverage (ranks : List String) (ir wr : String) :
    (∀ n : TaxNode,
      (∀ m ∈ n.subtree, m.children ≠ .nil → m.sequence_ids = []) →
      (∀ m ∈ n.subtree, m.children = .nil → m.sequence_ids ≠ [] →
        (m.rank = wr ∨ (strContainsBelow m.rank = false ∧
          rankIdx ranks ir < rankIdx ranks m.rank))) →
      ((innerSel ranks ir wr n).flatMap TaxNode.seqIds).toFinset = n.seqIds.toFinset) ∧
    (∀ f : TaxForest,
      (∀ m ∈ f.subtreeF, m.children ≠ .nil → m.sequence_ids = []) →
      (∀ m ∈ f.subtreeF, m.children = .nil → m.sequence_ids ≠ [] →
        (m.rank = wr ∨ (strContainsBelow m.rank = false ∧
          rankIdx ranks ir < rankIdx ranks m.rank))) →
      ((innerSelF ranks ir wr f).flatMap TaxNode.seqIds).toFinset
        = ((f.subtreeF).flatMap TaxNode.sequence_ids).toFinset) := by
  refine taxNode_forest_ind ?_ ?_ ?_
  · intro t r nm ids cs ihf hint hleaf
    have hint' : ∀ m ∈ cs.subtreeF, m.children ≠ .nil → m.sequence_ids = [] :=
      fun m hm => hint m (subtree_mk .. ▸ List.mem_cons_of_mem _ hm)
    have hleaf' : ∀ m ∈ cs.subtreeF, m.children = .nil → m.sequence_ids ≠ [] →
        (m.rank = wr ∨ (strContainsBelow m.rank = false ∧
          rankIdx ranks ir < rankIdx ranks m.rank)) :=
      fun m hm => hleaf m (subtree_mk .. ▸ List.mem_cons_of_mem _ hm)
    have hforest := ihf hint' hleaf'
    rw [innerSel_unfold]
    by_cases hcase1 : r = wr ∧ anySeqBelow (.mk t r nm ids cs) = true
    · rw [if_pos hcase1]
      simp [seqIds_mk]
    · rw [if_neg hcase1]
      by_cases hbe : (innerSelF ranks ir wr cs).isEmpty
      · rw [if_pos hbe]
        have hbe' : innerSelF ranks ir wr cs = [] := List.isEmpty_iff.1 hbe
        rw [hbe'] at hforest
        simp only [List.flatMap_nil, List.toFinset_nil] at hforest
        by_cases hany : anySeqBelow (.mk t r nm ids cs) = true
        · cases cs with
          | nil =>
            have hids : ids ≠ [] := by
              obtain ⟨m, hm, hmne⟩ := anySeqBelow_iff.1 hany
              rw [subtree_mk] at hm
              rcases List.mem_cons.1 hm with rfl | hm
              · exact hmne
              · cases hm
            have := hleaf (.mk t r nm ids .nil)
              (self_mem_subtree _) rfl hids
            rw [TaxNode.rank] at this
            rcases this with hrw | ⟨hsb, hlt⟩
            · exact absurd ⟨hrw, hany⟩ hcase1
            · rw [if_pos ⟨hany, by rw [Bool.not_eq_true, hsb], hlt⟩]
              simp [seqIds_mk]
          | cons c cs₂ =>
            have hids : ids = [] :=
              hint (.mk t r nm ids (.cons c cs₂)) (self_mem_subtree _)
                (by rw [TaxNode.children]; intro h; cases h)
            obtain ⟨m, hm, hmne⟩ := anySeqBelow_iff.1 hany
            rw [subtree_mk] at hm
            rcases List.mem_cons.1 hm with rfl | hm
            · exact absurd hids hmne
            · obtain ⟨x, hx⟩ := List.exists_mem_of_ne_nil _ hmne
              have : x ∈ ((TaxForest.cons c cs₂).subtreeF).flatMap TaxNode.sequence_ids :=
                List.mem_flatMap.2 ⟨m, hm, hx⟩
              rw [← List.mem_toFinset, hforest.symm] at this
              cases this
        · rw [if_neg (fun hc => hany hc.1)]
          simp only [List.flatMap_nil, List.toFinset_nil]
          have hids : ids = [] := by
            by_contra hne
            exact hany (anySeqBelow_iff.2 ⟨_, self_mem_subtree _, by
              rw [TaxNode.sequence_ids]; exact hne⟩)
          rw [seqIds_mk, hids, List.nil_append]
          symm
          rw [List.toFinset_eq_empty_iff]
          by_contra hne
          obtain ⟨x, hx⟩ := List.exists_mem_of_ne_nil _ hne
          obtain ⟨m, hm, hxm⟩ := List.mem_flatMap.1 hx
          exact hany (anySeqBelow_iff.2
            ⟨m, subtree_mk .. ▸ List.mem_cons_of_mem _ hm,
             fun he => by rw [he] at hxm; cases hxm⟩)
      · rw [if_neg hbe, hforest, seqIds_mk]
        have hcs : cs ≠ .nil := by
          intro h
          rw [h] at hbe
          exact hbe rfl
        have hids : ids = [] :=
          hint (.mk t r nm ids cs) (self_mem_subtree _)
            (by rw [TaxNode.children]; exact hcs)
        rw [hids, List.nil_append]
  · intro _ _
    rfl
  · intro c f ihc ihf hint hleaf
    have hmemc : ∀ m ∈ c.subtree, m ∈ (TaxForest.cons c f).subtreeF := by
      intro m hm
      show m ∈ c.subtree ++ f.subtreeF
      exact List.mem_append_left _ hm
    have hmemf : ∀ m ∈ f.subtreeF, m ∈ (TaxForest.cons c f).subtreeF := by
      intro m hm
      show m ∈ c.subtree ++ f.subtreeF
      exact List.mem_append_right _ hm
    have h1 := ihc (fun m hm => hint m (hmemc m hm)) (fun m hm => hleaf m (hmemc m hm))
    have h2 := ihf (fun m hm => hint m (hmemf m hm)) (fun m hm => hleaf m (hmemf m hm))
    show ((innerSel ranks ir wr c ++ innerSelF ranks ir wr f).flatMap TaxNode.seqIds).toFinset
      = ((c.subtree ++ f.subtreeF).flatMap TaxNode.sequence_ids).toFinset
    rw [List.flatMap_append, List.flatMap_append, List.toFinset_append, List.toFinset_append,
      h1, h2]
    rfl

theorem innerSel_antichain (ranks : List String) (ir wr : String) :
    (∀ n : TaxNode, (n.subtree.map TaxNode.tax_id).Nodup →
      ((innerSel ranks ir wr n).Pairwise
          (fun u v => ∀ a : TaxNode, a ∈ u.subtree → a ∈ v.subtree → False) ∧
        ∀ m ∈ innerSel ranks ir wr n, m ∈ n.subtree)) ∧
    (∀ f : TaxForest, ((f.subtreeF.map TaxNode.tax_id).Nodup) →
      ((innerSelF ranks ir wr f).Pairwise
          (fun u v => ∀ a : TaxNode, a ∈ u.subtree → a ∈ v.subtree → False) ∧
        ∀ m ∈ innerSelF ranks ir wr f, m ∈ f.subtreeF)) := by
  refine taxNode_forest_ind ?_ ?_ ?_
  · intro t r nm ids cs ihf hnd
    have hnd' : (cs.subtreeF.map TaxNode.tax_id).Nodup := by
      rw [subtree_mk, List.map_cons] at hnd
      exact hnd.of_cons
    rw [innerSel_unfold]
    by_cases hcase1 : r = wr ∧ anySeqBelow (.mk t r nm ids cs) = true
    · rw [if_pos hcase1]
      exact ⟨List.pairwise_singleton _ _, by
        intro m hm
        rcases List.mem_singleton.1 hm with rfl
        exact self_mem_subtree _⟩
    · rw [if_neg hcase1]
      by_cases hbe : (innerSelF ranks ir wr cs).isEmpty
      · rw [if_pos hbe]
        by_cases hc : anySeqBelow (.mk t r nm ids cs) = true ∧ ¬strContainsBelow r = true ∧
            rankIdx ranks ir < rankIdx ranks r
        · rw [if_pos hc]
          exact ⟨List.pairwise_singleton _ _, by
            intro m hm
            rcases List.mem_singleton.1 hm with rfl
            exact self_mem_subtree _⟩
        · rw [if_neg hc]
          exact ⟨List.Pairwise.nil, by intro m hm; cases hm⟩
      · rw [if_neg hbe]
        obtain ⟨hpw, hmem⟩ := ihf hnd'
        exact ⟨hpw, fun m hm =>
          subtree_mk .. ▸ List.mem_cons_of_mem _ (hmem m hm)⟩
  · intro _
    exact ⟨List.Pairwise.nil, by intro m hm; cases hm⟩
  · intro c f ihc ihf hnd
    have hsplit : ((TaxForest.cons c f).subtreeF.map TaxNode.tax_id)
        = c.subtree.map TaxNode.tax_id ++ f.subtreeF.map TaxNode.tax_id := by
      show ((c.subtree ++ f.subtreeF).map TaxNode.tax_id) = _
      rw [List.map_append]
    rw [hsplit, List.nodup_append] at hnd
    obtain ⟨hnd1, hnd2, hdis⟩ := hnd
    obtain ⟨hpw1, hmem1⟩ := ihc hnd1
    obtain ⟨hpw2, hmem2⟩ := ihf hnd2
    constructor
    · show (innerSel ranks ir wr c ++ innerSelF ranks ir wr f).Pairwise _
      rw [List.pairwise_append]
      refine ⟨hpw1, hpw2, ?_⟩
      intro m₁ hm₁ m₂ hm₂ a ha₁ ha₂
      have hac : a ∈ c.subtree := subtree_trans.1 c m₁ (hmem1 m₁ hm₁) a ha₁
      have haf : a ∈ f.subtreeF := subtree_trans.2 f m₂ (hmem2 m₂ hm₂) a ha₂
      exact hdis (List.mem_map_of_mem TaxNode.tax_id hac)
        (List.mem_map_of_mem TaxNode.tax_id haf)
    · intro m hm
      show m ∈ c.subtree ++ f.subtreeF
      rcases List.mem_append.1 hm with hm | hm
      · exact List.mem_append_left _ (hmem1 m hm)
      · exact List.mem_append_right _ (hmem2 m hm)

/-- C6 as stated is false on the code: in the taxonomy `c6CexTax` every
leaf holds a sequence id, yet `find_nodes` (index rank `order`) selects no
node at all, because the sequence-bearing leaf has rank `class`, which is
not strictly deeper than the index rank, so the fallback rule rejects it;
the union of the selected subtrees' ids is therefore empty and differs from
the full id set. -/
theorem claim_C6_counterexample :
    (∀ n ∈ c6CexTax.root.subtree, n.children = .nil → n.sequence_ids ≠ []) ∧
    find_nodes c6CexTax "order" "species" = [] ∧
    ¬ (((find_nodes c6CexTax "order" "species").flatMap TaxNode.seqIds).toFinset
        = (allSeqIdsOf c6CexTax.root).toFinset) := by
  refine ⟨by decide, by decide, by decide⟩

/-- C6 amended: assume additionally that sequence ids are attached only at
leaf nodes, that every leaf's rank either equals the target rank or both
avoids the "below" marker and lies strictly deeper than the index rank, and
(for disjointness) the spec section 3 well-formedness of tax_ids and of the
sequence-id attachment.  Then the union of the sequence ids under the
selected nodes is exactly the full id set, and no sequence id lies under
two distinct selected nodes. -/
theorem claim_C6 (tax : Taxonomy) (index_rank want_rank : String)
    (htid : (tax.root.subtree.map TaxNode.tax_id).Nodup)
    (hids : (allSeqIdsOf tax.root).Nodup)
    (hleafseq : ∀ n ∈ tax.root.subtree, n.children = .nil → n.sequence_ids ≠ [])
    (hinternal : ∀ n ∈ tax.root.subtree, n.children ≠ .nil → n.sequence_ids = [])
    (hleafrank : ∀ n ∈ tax.root.subtree, n.children = .nil →
      (n.rank = want_rank ∨ (strContainsBelow n.rank = false ∧
        rankIdx tax.ranks index_rank < rankIdx tax.ranks n.rank))) :
    ((find_nodes tax index_rank want_rank).flatMap TaxNode.seqIds).toFinset
      = (allSeqIdsOf tax.root).toFinset ∧
    (∀ m₁ ∈ find_nodes tax index_rank want_rank,
      ∀ m₂ ∈ find_nodes tax index_rank want_rank,
      ∀ x, x ∈ m₁.seqIds → x ∈ m₂.seqIds → m₁ = m₂) := by
  constructor
  · exact (innerSel_coverage tax.ranks index_rank want_rank).1 tax.root
      hinternal (fun m hm hc _ => hleafrank m hm hc)
  · intro m₁ hm₁ m₂ hm₂ x hx₁ hx₂
    obtain ⟨hpw, hsub⟩ :=
      (innerSel_antichain tax.ranks index_rank want_rank).1 tax.root htid
    obtain ⟨a₁, ha₁, hxa₁⟩ := List.mem_flatMap.1 hx₁
    obtain ⟨a₂, ha₂, hxa₂⟩ := List.mem_flatMap.1 hx₂
    have ha₁r : a₁ ∈ tax.root.subtree :=
      subtree_trans.1 tax.root m₁ (hsub m₁ hm₁) a₁ ha₁
    have ha₂r : a₂ ∈ tax.root.subtree :=
      subtree_trans.1 tax.root m₂ (hsub m₂ hm₂) a₂ ha₂
    have haeq : a₁ = a₂ := nodup_flatMap_unique hids ha₁r ha₂r hxa₁ hxa₂
    by_contra hne
    have hsymm : Symmetric (fun u v : TaxNode =>
        ∀ a : TaxNode, a ∈ u.subtree → a ∈ v.subtree → False) :=
      fun u v h a hau hav => h a hav hau
    exact hpw.forall hsymm hm₁ hm₂ hne a₁ ha₁ (haeq ▸ ha₂)

/-- Witness for the amended C6 at a well-formed fixture: three leaves carry
x1, x2, x3; `find_nodes` selects both species leaves and the childless
genus g2, covering exactly the full id set. -/
theorem claim_C6_witness :
    ((find_nodes c6WitTax "order" "species").flatMap TaxNode.seqIds).toFinset
      = (allSeqIdsOf c6WitTax.root).toFinset ∧
    (find_nodes c6WitTax "order" "species").map TaxNode.nodeName = ["s1", "s2", "g2"] :=
  ⟨(claim_C6 c6WitTax "order" "species" (by decide) (by decide) (by decide)
      (by decide) (by decide)).1,
   by decide⟩

/-! ## Lemmas on the scheduler loop -/

theorem mergeLoop_error (oracle : FilterOracle) (cfg : FilterConfig)
    (jobs : List SubJob) (π₁ π₂ : List Nat) (i : Nat) (j : SubJob) (e : SchedErr)
    (hj : jobs.get? i = some j) (he : jobResult oracle cfg j = .error e)
    (hπ₁ : ∀ k ∈ π₁, ∀ j₂, jobs.get? k = some j₂ →
      ∀ e₂, jobResult oracle cfg j₂ ≠ .error e₂) :
    mergeLoop oracle cfg jobs (π₁ ++ i :: π₂) = .error e := by
  induction π₁ with
  | nil =>
    rw [List.nil_append]
    simp only [mergeLoop, hj, he]
  | cons k π₁ ih =>
    rw [List.cons_append]
    simp only [mergeLoop]
    cases hk : jobs.get? k with
    | none =>
      exact ih (fun k₂ hk₂ => hπ₁ k₂ (List.mem_cons_of_mem _ hk₂))
    | some j₂ =>
      cases hr : jobResult oracle cfg j₂ with
      | error e₂ =>
        exact absurd hr (hπ₁ k (List.mem_cons_self _ _) j₂ hk e₂)
      | ok rows =>
        have hmerge := ih (fun k₂ hk₂ => hπ₁ k₂ (List.mem_cons_of_mem _ hk₂))
        simp only [hk, hr, hmerge]
        rfl

theorem mergeLoop_ok_eq (oracle : FilterOracle) (cfg : FilterConfig)
    (jobs : List SubJob) (π : List Nat) (out : List FilterRow)
    (h : mergeLoop oracle cfg jobs π = .ok out) :
    out = π.flatMap (jobRows oracle cfg jobs) := by
  induction π generalizing out with
  | nil =>
    rw [mergeLoop] at h
    cases h
    rfl
  | cons i π ih =>
    simp only [mergeLoop] at h
    cases hk : jobs.get? i with
    | none =>
      rw [hk] at h
      rw [List.flatMap_cons]
      show out = jobRows oracle cfg jobs i ++ _
      rw [jobRows, hk, List.nil_append]
      exact ih out h
    | some j =>
      simp only [hk] at h
      cases hr : jobResult oracle cfg j with
      | error e =>
        simp only [hr] at h
        cases h
      | ok rows =>
        simp only [hr] at h
        cases hm : mergeLoop oracle cfg jobs π with
        | error e =>
          simp only [hm, Except.map] at h
          cases h
        | ok out₀ =>
          simp only [hm, Except.map] at h
          have hout := Except.ok.inj h
          rw [List.flatMap_cons]
          have hrow : jobRows oracle cfg jobs i = tagRank j.tax_id rows := by
            simp only [jobRows, hk, jobRowsJ, hr]
          rw [hrow, ← hout, ih out₀ hm]

theorem runAction_ok_elim (cfg : FilterConfig) (tax : Taxonomy) (oracle : FilterOracle)
    (π : List Nat) (out : List FilterRow)
    (h : runAction cfg tax oracle π = .ok out) :
    out = mock_filter (sequences_above_rank tax cfg.filter_rank) true
            ++ π.flatMap (jobRows oracle cfg (submittedJobs cfg tax)) ∧
    (allSeqIds tax).toFinset = (out.map FilterRow.seqname).toFinset := by
  cases hm : mergeLoop oracle cfg (submittedJobs cfg tax) π with
  | error e =>
    simp only [runAction, hm] at h
    cases h
  | ok merged =>
    simp only [runAction, hm] at h
    by_cases hc : (allSeqIds tax).toFinset
        = ((mock_filter (sequences_above_rank tax cfg.filter_rank) true ++ merged).map
            FilterRow.seqname).toFinset
    · rw [if_pos hc] at h
      cases h
      exact ⟨by rw [mergeLoop_ok_eq _ _ _ _ _ hm], hc⟩
    · rw [if_neg hc] at h
      cases h

theorem runAction_error_of_mergeLoop (cfg : FilterConfig) (tax : Taxonomy)
    (oracle : FilterOracle) (π : List Nat) (e : SchedErr)
    (h : mergeLoop oracle cfg (submittedJobs cfg tax) π = .error e) :
    runAction cfg tax oracle π = .error e := by
  simp only [runAction, h]

/-! ## Claim C1: fail-fast of the scheduler -/

/-- C1 as stated is false on the code: the dispatch loop submits every job
before the wait loop examines any result, so when the job at dispatch
position 0 fails (oracle error for node A), the scheduler does surface
exactly that error, but the job for node B — beyond the failing position —
has already been submitted: the claim "submits no further jobs beyond the
failing one" does not hold. -/
theorem claim_C1_counterexample :
    runAction schedCfg schedTax schedOracle [0, 1] = .error (.external "boom") ∧
    jobResult schedOracle schedCfg ⟨"A", "specA", ["a"], .real⟩ = .error (.external "boom") ∧
    ¬ ((submittedJobs schedCfg schedTax).length ≤ 1) ∧
    (submittedJobs schedCfg schedTax).get? 1 = some ⟨"B", "specB", ["b"], .real⟩ :=
  ⟨rfl, rfl, by decide, by decide⟩

/-- C1 amended: all jobs are submitted up front (submission is independent
of any failure — `submittedJobs` does not depend on the oracle), and the
wait loop fails fast: when every future processed before position `i` in
completion order succeeded and the future at `i` failed with `e`, the whole
action surfaces exactly `e`; the accumulator and the outcomes of every
job at or after the failure are discarded (the run returns no rows). -/
theorem claim_C1 (cfg : FilterConfig) (tax : Taxonomy) (oracle : FilterOracle)
    (π₁ π₂ : List Nat) (i : Nat) (j : SubJob) (e : SchedErr)
    (hj : (submittedJobs cfg tax).get? i = some j)
    (he : jobResult oracle cfg j = .error e)
    (hπ₁ : ∀ k ∈ π₁, ∀ j₂, (submittedJobs cfg tax).get? k = some j₂ →
      ∀ e₂, jobResult oracle cfg j₂ ≠ .error e₂) :
    runAction cfg tax oracle (π₁ ++ i :: π₂) = .error e :=
  runAction_error_of_mergeLoop cfg tax oracle _ e
    (mergeLoop_error oracle cfg _ π₁ π₂ i j e hj he hπ₁)

/-- Witness for the amended C1 at the two-node fixture: the first processed
future fails, the error is surfaced, and both jobs were submitted. -/
theorem claim_C1_witness :
    runAction schedCfg schedTax schedOracle ([] ++ 0 :: [1]) = .error (.external "boom") ∧
    (submittedJobs schedCfg schedTax).length = 2 :=
  ⟨claim_C1 schedCfg schedTax schedOracle [] [1] 0 ⟨"A", "specA", ["a"], .real⟩
      (.external "boom") (by decide) rfl (by intro k hk; cases hk),
   by decide⟩

/-! ## Membership lemmas on jobs and outcome rows -/

theorem mem_submittedJobs {cfg : FilterConfig} {tax : Taxonomy} {j : SubJob} :
    j ∈ submittedJobs cfg tax
      ↔ ∃ n ∈ tax.root.subtree, n.rank = cfg.filter_rank ∧ nodeJob cfg n = some j := by
  unfold submittedJobs
  rw [List.mem_filterMap]
  constructor
  · rintro ⟨n, hn, hjn⟩
    rw [List.mem_filter, decide_eq_true_eq] at hn
    exact ⟨n, hn.1, hn.2, hjn⟩
  · rintro ⟨n, hn, hrank, hjn⟩
    exact ⟨n, List.mem_filter.2 ⟨hn, decide_eq_true hrank⟩, hjn⟩

theorem nodeJob_some {cfg : FilterConfig} {n : TaxNode} {j : SubJob}
    (h : nodeJob cfg n = some j) :
    n.seqIds.dedup ≠ [] ∧ j.tax_id = n.tax_id ∧ j.taxName = n.nodeName ∧
    j.seqs = n.seqIds.dedup ∧
    ((n.seqIds.dedup.length < cfg.min_seqs_for_filtering ∧
        j.kind = .mock (cfg.rare_taxon_action = .keep)) ∨
      (¬ n.seqIds.dedup.length < cfg.min_seqs_for_filtering ∧ j.kind = .real)) := by
  unfold nodeJob at h
  by_cases hemp : n.seqIds.dedup.isEmpty
  · rw [if_pos hemp] at h
    cases h
  · rw [if_neg hemp] at h
    have hne : n.seqIds.dedup ≠ [] := fun he => hemp (by rw [he]; rfl)
    by_cases hlt : n.seqIds.dedup.length < cfg.min_seqs_for_filtering
    · rw [if_pos hlt] at h
      cases h
      exact ⟨hne, rfl, rfl, rfl, Or.inl ⟨hlt, rfl⟩⟩
    · rw [if_neg hlt] at h
      cases h
      exact ⟨hne, rfl, rfl, rfl, Or.inr ⟨hlt, rfl⟩⟩

theorem nodeJob_of_rare {cfg : FilterConfig} {n : TaxNode}
    (hne : n.seqIds.dedup ≠ [])
    (hlt : n.seqIds.dedup.length < cfg.min_seqs_for_filtering) :
    nodeJob cfg n
      = some ⟨n.tax_id, n.nodeName, n.seqIds.dedup, .mock (cfg.rare_taxon_action = .keep)⟩ := by
  unfold nodeJob
  rw [if_neg (by rw [List.isEmpty_iff]; exact hne), if_pos hlt]

theorem nodeJob_of_empty {cfg : FilterConfig} {n : TaxNode}
    (he : n.seqIds.dedup = []) : nodeJob cfg n = none := by
  unfold nodeJob
  rw [if_pos (by rw [List.isEmpty_iff]; exact he)]

theorem job_mem_processed {cfg : FilterConfig} {tax : Taxonomy} {j : SubJob}
    {π : List Nat} (hπ : π.Perm (List.range (submittedJobs cfg tax).length))
    (hj : j ∈ submittedJobs cfg tax) :
    ∃ i ∈ π, (submittedJobs cfg tax).get? i = some j := by
  obtain ⟨i, hi⟩ := List.mem_iff_get?.1 hj
  refine ⟨i, ?_, hi⟩
  rw [hπ.mem_iff, List.mem_range]
  exact (List.get?_eq_some.1 hi).fst

theorem row_mem_out {cfg : FilterConfig} {tax : Taxonomy} {oracle : FilterOracle}
    {π : List Nat} {out : List FilterRow}
    (hrun : runAction cfg tax oracle π = .ok out)
    {i : Nat} (hiπ : i ∈ π) {r : FilterRow}
    (hr : r ∈ jobRows oracle cfg (submittedJobs cfg tax) i) : r ∈ out := by
  obtain ⟨hout, -⟩ := runAction_ok_elim cfg tax oracle π out hrun
  rw [hout, List.mem_append]
  exact Or.inr (List.mem_flatMap.2 ⟨i, hiπ, hr⟩)

theorem out_row_sources {cfg : FilterConfig} {tax : Taxonomy} {oracle : FilterOracle}
    {π : List Nat} {out : List FilterRow}
    (hrun : runAction cfg tax oracle π = .ok out) {r : FilterRow} (hr : r ∈ out) :
    r.rank_col = none ∨
    ∃ j ∈ submittedJobs cfg tax, r.rank_col = some j.tax_id := by
  obtain ⟨hout, -⟩ := runAction_ok_elim cfg tax oracle π out hrun
  rw [hout, List.mem_append] at hr
  rcases hr with hr | hr
  · obtain ⟨s, -, rfl⟩ := List.mem_map.1 hr
    exact Or.inl rfl
  · obtain ⟨i, -, hri⟩ := List.mem_flatMap.1 hr
    rw [jobRows] at hri
    cases hk : (submittedJobs cfg tax).get? i with
    | none =>
      rw [hk] at hri
      cases hri
    | some j =>
      rw [hk] at hri
      simp only [jobRowsJ] at hri
      cases hres : jobResult oracle cfg j with
      | error e =>
        rw [hres] at hri
        cases hri
      | ok rows =>
        rw [hres] at hri
        obtain ⟨r₀, -, rfl⟩ := List.mem_map.1 hri
        exact Or.inr ⟨j, List.get?_mem hk, rfl⟩

theorem rareAction_bool (a : RareAction) :
    (!decide (a = RareAction.keep)) = decide (a = RareAction.drop) := by
  cases a <;> rfl

/-! ## Claim C4: the rare-taxon policy -/

/-- C4: for every filter-rank node whose subtree holds at least one but
fewer than `min_seqs_for_filtering` distinct sequences, the job dispatched
for it is a `mock_filter` call (never an alignment/outlier-detection job),
and in the successful aggregated outcome every one of its sequences appears
with `is_out` false under KEEP and true under DROP; a filter-rank node with
zero sequences produces no job and contributes no rows. -/
theorem claim_C4 (cfg : FilterConfig) (tax : Taxonomy) (oracle : FilterOracle)
    (π : List Nat) (out : List FilterRow) (n : TaxNode)
    (hn : n ∈ tax.root.subtree) (hrank : n.rank = cfg.filter_rank)
    (htid : (tax.root.subtree.map TaxNode.tax_id).Nodup)
    (hπ : π.Perm (List.range (submittedJobs cfg tax).length))
    (hrun : runAction cfg tax oracle π = .ok out) :
    (n.seqIds.dedup = [] →
      (∀ j ∈ submittedJobs cfg tax, j.tax_id ≠ n.tax_id) ∧
      (∀ r ∈ out, r.rank_col ≠ some n.tax_id)) ∧
    (n.seqIds.dedup ≠ [] →
      n.seqIds.dedup.length < cfg.min_seqs_for_filtering →
      ((⟨n.tax_id, n.nodeName, n.seqIds.dedup,
          .mock (cfg.rare_taxon_action = .keep)⟩ : SubJob) ∈ submittedJobs cfg tax) ∧
      (∀ j ∈ submittedJobs cfg tax, j.tax_id = n.tax_id → j.kind ≠ .real) ∧
      (∀ s ∈ n.seqIds.dedup,
        (⟨s, none, none, decide (cfg.rare_taxon_action = .drop), some n.tax_id⟩
          : FilterRow) ∈ out)) := by
  have huniq : ∀ m ∈ tax.root.subtree, m.tax_id = n.tax_id → m = n := by
    intro m hm he
    exact List.inj_on_of_nodup_map htid hm hn he
  constructor
  · intro hempty
    have hnojob : ∀ j ∈ submittedJobs cfg tax, j.tax_id ≠ n.tax_id := by
      intro j hj heq
      obtain ⟨m, hm, -, hjm⟩ := mem_submittedJobs.1 hj
      obtain ⟨hmne, hmt, -, -, -⟩ := nodeJob_some hjm
      have : m = n := huniq m hm (by rw [← hmt, heq])
      rw [this] at hmne
      exact hmne hempty
    refine ⟨hnojob, ?_⟩
    intro r hr hcol
    rcases out_row_sources hrun hr with h | ⟨j, hj, hjc⟩
    · rw [hcol] at h
      cases h
    · rw [hcol] at hjc
      exact hnojob j hj (Option.some.inj hjc).symm
  · intro hne hlt
    have hjob : nodeJob cfg n = some ⟨n.tax_id, n.nodeName, n.seqIds.dedup,
        .mock (cfg.rare_taxon_action = .keep)⟩ := nodeJob_of_rare hne hlt
    have hmem : (⟨n.tax_id, n.nodeName, n.seqIds.dedup,
        .mock (cfg.rare_taxon_action = .keep)⟩ : SubJob) ∈ submittedJobs cfg tax :=
      mem_submittedJobs.2 ⟨n, hn, hrank, hjob⟩
    refine ⟨hmem, ?_, ?_⟩
    · intro j hj hjt hkind
      obtain ⟨m, hm, -, hjm⟩ := mem_submittedJobs.1 hj
      obtain ⟨-, hmt, -, hseqs, hcase⟩ := nodeJob_some hjm
      have hmn : m = n := huniq m hm (by rw [← hmt, hjt])
      rcases hcase with ⟨-, hk⟩ | ⟨hge, -⟩
      · rw [hkind] at hk
        cases hk
      · rw [hmn] at hge
        exact hge hlt
    · intro s hs
      obtain ⟨i, hiπ, hgi⟩ := job_mem_processed hπ hmem
      apply row_mem_out hrun hiπ
      simp only [jobRows, hgi, jobRowsJ]
      show (⟨s, none, none, decide (cfg.rare_taxon_action = .drop), some n.tax_id⟩
          : FilterRow) ∈ tagRank n.tax_id (mock_filter n.seqIds.dedup
            (decide (cfg.rare_taxon_action = RareAction.keep)))
      unfold tagRank mock_filter
      rw [List.map_map, List.mem_map]
      refine ⟨s, hs, ?_⟩
      simp only [Function.comp_apply]
      rw [rareAction_bool]

/-- Witness for C4 on a run with two rare (single-sequence) species nodes
under the KEEP policy: the dispatched job for node A is the mock job, and
its sequence appears in the aggregated outcome with `is_out` false. -/
theorem claim_C4_witness :
    ((⟨"A", "specA", ["x"], .mock true⟩ : SubJob) ∈ submittedJobs c5CexCfg c5CexTax) ∧
    ((⟨"x", none, none, false, some "A"⟩ : FilterRow)
      ∈ ([⟨"x", none, none, false, some "A"⟩, ⟨"x", none, none, false, some "B"⟩]
          : List FilterRow)) := by
  have h := claim_C4 c5CexCfg c5CexTax failOracle [0, 1]
    [⟨"x", none, none, false, some "A"⟩, ⟨"x", none, none, false, some "B"⟩]
    (.mk "A" "species" "specA" ["x"] .nil) (by decide) (by decide) (by decide)
    (by decide) rfl
  have h₂ := h.2 (by decide) (by decide)
  exact ⟨h₂.1, h₂.2.2 "x" (by decide)⟩

/-! ## Claim C10: unconditional keeping above the filter rank -/

theorem mem_sequences_above_rank {tax : Taxonomy} {rank : String} {s : String} :
    s ∈ sequences_above_rank tax rank
      ↔ ∃ n ∈ tax.root.subtree,
          rankIdx tax.ranks n.rank < rankIdx tax.ranks rank ∧ s ∈ n.sequence_ids := by
  unfold sequences_above_rank
  rw [List.mem_flatMap]
  constructor
  · rintro ⟨n, hn, hs⟩
    rw [List.mem_filter, decide_eq_true_eq] at hn
    exact ⟨n, hn.1, hn.2, hs⟩
  · rintro ⟨n, hn, hlt, hs⟩
    exact ⟨n, List.mem_filter.2 ⟨hn, decide_eq_true hlt⟩, hs⟩

/-- C10: every sequence id attached at a node classified strictly above the
filter rank is placed in the aggregated outcome of any successful run with
`is_out` false, empty centroid, empty distance and an empty filter-rank
column, and such an id never occurs in the input of any dispatched job —
for every distance cutoff and rare-taxon policy (the configuration is
universally quantified), assuming the spec section 3 invariants (unique
attachment and strictly increasing rank depth along edges). -/
theorem claim_C10 (cfg : FilterConfig) (tax : Taxonomy) (oracle : FilterOracle)
    (π : List Nat) (out : List FilterRow) (n : TaxNode)
    (hids : (allSeqIdsOf tax.root).Nodup)
    (hstrict : ∀ p ∈ tax.root.subtree, ∀ c ∈ p.children.toList,
      rankIdx tax.ranks p.rank < rankIdx tax.ranks c.rank)
    (hn : n ∈ tax.root.subtree)
    (habove : rankIdx tax.ranks n.rank < rankIdx tax.ranks cfg.filter_rank)
    (hrun : runAction cfg tax oracle π = .ok out) :
    (∀ s ∈ n.sequence_ids, (⟨s, none, none, false, none⟩ : FilterRow) ∈ out) ∧
    (∀ s ∈ n.sequence_ids, ∀ j ∈ submittedJobs cfg tax, s ∉ j.seqs) := by
  constructor
  · intro s hs
    obtain ⟨hout, -⟩ := runAction_ok_elim cfg tax oracle π out hrun
    rw [hout, List.mem_append]
    left
    unfold mock_filter
    rw [List.mem_map]
    exact ⟨s, mem_sequences_above_rank.2 ⟨n, hn, habove, hs⟩, rfl⟩
  · intro s hs j hj hsj
    obtain ⟨m, hm, hmrank, hjm⟩ := mem_submittedJobs.1 hj
    obtain ⟨-, -, -, hseqs, -⟩ := nodeJob_some hjm
    rw [hseqs, List.mem_dedup] at hsj
    obtain ⟨a, ha, hsa⟩ := List.mem_flatMap.1 hsj
    have haroot : a ∈ tax.root.subtree := subtree_trans.1 tax.root m hm a ha
    have hna : n = a := nodup_flatMap_unique hids hn haroot hs hsa
    rw [← hna] at ha
    rcases rank_strict_subtree hstrict m hm n ha with rfl | hlt
    · rw [hmrank] at habove
      exact absurd habove (lt_irrefl _)
    · rw [hmrank] at hlt
      exact absurd (hlt.trans habove) (lt_irrefl _)

/-- Witness for C10: in a taxonomy with an id y attached at a genus node
(above the species filter rank), a successful run keeps y via the
above-rank block and no dispatched job contains y. -/
theorem claim_C10_witness :
    ((⟨"y", none, none, false, none⟩ : FilterRow)
      ∈ ([⟨"y", none, none, false, none⟩, ⟨"x1", none, none, false, some "3"⟩]
          : List FilterRow)) ∧
    (∀ j ∈ submittedJobs c10WitCfg c10WitTax, "y" ∉ j.seqs) := by
  have h := claim_C10 c10WitCfg c10WitTax failOracle [0]
    [⟨"y", none, none, false, none⟩, ⟨"x1", none, none, false, some "3"⟩]
    (.mk "2" "genus" "g1" ["y"] (.cons (.mk "3" "species" "s1" ["x1"] .nil) .nil))
    (by decide) (by decide) (by decide) (by decide) rfl
  exact ⟨h.1 "y" (by decide), fun j hj => h.2 "y" (by decide) j hj⟩

/-! ## Claim C8: order-independence of the kept-id set -/

theorem mem_keptIds {rows : List FilterRow} {x : String} :
    x ∈ keptIds rows ↔ ∃ r ∈ rows, r.is_out = false ∧ r.seqname = x := by
  unfold keptIds
  rw [List.mem_toFinset, List.mem_map]
  constructor
  · rintro ⟨r, hr, rfl⟩
    rw [List.mem_filter, Bool.not_eq_eq_eq_not, Bool.not_true] at hr
    exact ⟨r, hr.1, hr.2, rfl⟩
  · rintro ⟨r, hr, hout, rfl⟩
    refine ⟨r, ?_, rfl⟩
    rw [List.mem_filter, Bool.not_eq_eq_eq_not, Bool.not_true]
    exact ⟨hr, hout⟩

theorem mem_runAction_out {cfg : FilterConfig} {tax : Taxonomy} {oracle : FilterOracle}
    {π : List Nat} {out : List FilterRow}
    (h : runAction cfg tax oracle π = .ok out) {r : FilterRow} :
    r ∈ out ↔ (r ∈ mock_filter (sequences_above_rank tax cfg.filter_rank) true ∨
      ∃ i ∈ π, r ∈ jobRows oracle cfg (submittedJobs cfg tax) i) := by
  obtain ⟨hout, -⟩ := runAction_ok_elim cfg tax oracle π out h
  rw [hout, List.mem_append, List.mem_flatMap]

/-- C8: for a fixed taxonomy, configuration and per-node results (the
oracle), two successful runs of the aggregation whose completion orders are
permutations of one another produce the same final kept-id set. -/
theorem claim_C8 (cfg : FilterConfig) (tax : Taxonomy) (oracle : FilterOracle)
    (π₁ π₂ : List Nat) (out₁ out₂ : List FilterRow) (hperm : π₁.Perm π₂)
    (h₁ : runAction cfg tax oracle π₁ = .ok out₁)
    (h₂ : runAction cfg tax oracle π₂ = .ok out₂) :
    keptIds out₁ = keptIds out₂ := by
  ext x
  rw [mem_keptIds, mem_keptIds]
  constructor
  · rintro ⟨r, hr, hout, rfl⟩
    refine ⟨r, ?_, hout, rfl⟩
    rw [mem_runAction_out h₂]
    rcases (mem_runAction_out h₁).1 hr with h | ⟨i, hi, h⟩
    · exact Or.inl h
    · exact Or.inr ⟨i, hperm.mem_iff.1 hi, h⟩
  · rintro ⟨r, hr, hout, rfl⟩
    refine ⟨r, ?_, hout, rfl⟩
    rw [mem_runAction_out h₁]
    rcases (mem_runAction_out h₂).1 hr with h | ⟨i, hi, h⟩
    · exact Or.inl h
    · exact Or.inr ⟨i, hperm.mem_iff.2 hi, h⟩

/-- Witness for C8: the two-rare-node fixture run in completion orders
[0, 1] and [1, 0] produces row lists in different orders but the same
kept-id set. -/
theorem claim_C8_witness :
    keptIds [⟨"x", none, none, false, some "A"⟩, ⟨"x", none, none, false, some "B"⟩]
      = keptIds [⟨"x", none, none, false, some "B"⟩, ⟨"x", none, none, false, some "A"⟩] :=
  claim_C8 c5CexCfg c5CexTax failOracle [0, 1] [1, 0] _ _ (by decide) rfl rfl

/-! ## Claim C5: outcome completeness -/

theorem sublist_flatMap {α β : Type} {l₁ l₂ : List α} (f : α → List β)
    (h : l₁.Sublist l₂) : (l₁.flatMap f).Sublist (l₂.flatMap f) := by
  induction h with
  | slnil => exact List.Sublist.refl _
  | cons a h ih =>
    rw [List.flatMap_cons]
    exact ih.trans (List.sublist_append_right _ _)
  | cons₂ a h ih =>
    rw [List.flatMap_cons, List.flatMap_cons]
    exact ih.append_left _

theorem mock_filter_names (l : List String) (keep : Bool) :
    (mock_filter l keep).map FilterRow.seqname = l := by
  unfold mock_filter
  rw [List.map_map]
  exact List.map_id _

theorem tagRank_names (tid : String) (rows : List FilterRow) :
    (tagRank tid rows).map FilterRow.seqname = rows.map FilterRow.seqname := by
  unfold tagRank
  rw [List.map_map]
  rfl

theorem flatMap_filterMap {α β γ : Type} (l : List α) (f : α → Option β) (g : β → List γ) :
    (l.filterMap f).flatMap g
      = l.flatMap (fun x => match f x with | none => [] | some j => g j) := by
  induction l with
  | nil => rfl
  | cons x l ih =>
    rw [List.filterMap_cons, List.flatMap_cons]
    cases hx : f x with
    | none =>
      rw [ih]
      simp
    | some j =>
      rw [List.flatMap_cons, ih]

theorem nodup_flatMap_of {α β : Type} [DecidableEq β] (l : List α) (f : α → List β)
    (hn : ∀ a ∈ l, (f a).Nodup)
    (hpw : l.Pairwise (fun a b => ∀ x, x ∈ f a → x ∈ f b → False)) :
    (l.flatMap f).Nodup := by
  induction l with
  | nil => exact List.nodup_nil
  | cons a l ih =>
    rw [List.flatMap_cons]
    obtain ⟨hhead, htail⟩ := List.pairwise_cons.1 hpw
    refine (hn a (List.mem_cons_self _ _)).append
      (ih (fun b hb => hn b (List.mem_cons_of_mem _ hb)) htail) ?_
    intro x hxa hxl
    obtain ⟨b, hb, hxb⟩ := List.mem_flatMap.1 hxl
    exact hhead b hb x hxa hxb

theorem range_flatMap_jobRows (oracle : FilterOracle) (cfg : FilterConfig)
    (jobs : List SubJob) :
    (List.range jobs.length).flatMap (jobRows oracle cfg jobs)
      = jobs.flatMap (jobRowsJ oracle cfg) := by
  induction jobs with
  | nil => rfl
  | cons j jobs ih =>
    rw [List.length_cons, List.range_succ_eq_map, List.flatMap_cons, List.flatMap_cons]
    congr 1
    rw [List.flatMap_map]
    rw [← ih]
    apply List.flatMap_congr
    intro i hi
    rfl

theorem merged_perm {oracle : FilterOracle} {cfg : FilterConfig} {jobs : List SubJob}
    {π : List Nat} (hπ : π.Perm (List.range jobs.length)) :
    (π.flatMap (jobRows oracle cfg jobs)).Perm (jobs.flatMap (jobRowsJ oracle cfg)) := by
  rw [← range_flatMap_jobRows oracle cfg jobs, List.flatMap_def, List.flatMap_def]
  exact (hπ.map (jobRows oracle cfg jobs)).flatten

theorem subtree_overlap :
    (∀ n : TaxNode, (n.subtree.map TaxNode.tax_id).Nodup →
      ∀ m₁ ∈ n.subtree, ∀ m₂ ∈ n.subtree, ∀ a : TaxNode,
        a ∈ m₁.subtree → a ∈ m₂.subtree → m₁ ∈ m₂.subtree ∨ m₂ ∈ m₁.subtree) ∧
    (∀ f : TaxForest, ((f.subtreeF.map TaxNode.tax_id).Nodup) →
      ∀ m₁ ∈ f.subtreeF, ∀ m₂ ∈ f.subtreeF, ∀ a : TaxNode,
        a ∈ m₁.subtree → a ∈ m₂.subtree → m₁ ∈ m₂.subtree ∨ m₂ ∈ m₁.subtree) := by
  refine taxNode_forest_ind ?_ ?_ ?_
  · intro t r nm ids cs ihf hnd m₁ hm₁ m₂ hm₂ a ha₁ ha₂
    have hnd' : (cs.subtreeF.map TaxNode.tax_id).Nodup := by
      rw [subtree_mk, List.map_cons] at hnd
      exact hnd.of_cons
    rw [subtree_mk] at hm₁ hm₂
    rcases List.mem_cons.1 hm₁ with rfl | hm₁
    · refine Or.inr ?_
      rw [subtree_mk]
      exact hm₂
    · rcases List.mem_cons.1 hm₂ with rfl | hm₂
      · refine Or.inl ?_
        rw [subtree_mk]
        exact List.mem_cons_of_mem _ hm₁
      · exact ihf hnd' m₁ hm₁ m₂ hm₂ a ha₁ ha₂
  · intro _ m₁ hm₁
    cases hm₁
  · intro c f ihc ihf hnd m₁ hm₁ m₂ hm₂ a ha₁ ha₂
    have hsplit : ((TaxForest.cons c f).subtreeF.map TaxNode.tax_id)
        = c.subtree.map TaxNode.tax_id ++ f.subtreeF.map TaxNode.tax_id := by
      show ((c.subtree ++ f.subtreeF).map TaxNode.tax_id) = _
      rw [List.map_append]
    rw [hsplit, List.nodup_append] at hnd
    obtain ⟨hnd1, hnd2, hdis⟩ := hnd
    have hm₁' : m₁ ∈ c.subtree ++ f.subtreeF := hm₁
    have hm₂' : m₂ ∈ c.subtree ++ f.subtreeF := hm₂
    rcases List.mem_append.1 hm₁' with h₁ | h₁ <;> rcases List.mem_append.1 hm₂' with h₂ | h₂
    · exact ihc hnd1 m₁ h₁ m₂ h₂ a ha₁ ha₂
    · exact absurd (List.mem_map_of_mem TaxNode.tax_id (subtree_trans.2 f m₂ h₂ a ha₂))
        (fun hmem => hdis
          (List.mem_map_of_mem TaxNode.tax_id (subtree_trans.1 c m₁ h₁ a ha₁)) hmem)
    · exact absurd (List.mem_map_of_mem TaxNode.tax_id (subtree_trans.2 f m₁ h₁ a ha₁))
        (fun hmem => hdis
          (List.mem_map_of_mem TaxNode.tax_id (subtree_trans.1 c m₂ h₂ a ha₂)) hmem)
    · exact ihf hnd2 m₁ h₁ m₂ h₂ a ha₁ ha₂

theorem jobRowsJ_names {oracle : FilterOracle} {cfg : FilterConfig}
    (horacle : ∀ q t seqs rows, oracle q t seqs = .ok rows →
      (rows.map FilterRow.seqname).Perm seqs) (j : SubJob) :
    ((jobRowsJ oracle cfg j).map FilterRow.seqname).Perm j.seqs
      ∨ jobRowsJ oracle cfg j = [] := by
  cases hk : j.kind with
  | mock keep =>
    left
    simp only [jobRowsJ, jobResult, hk]
    rw [tagRank_names, mock_filter_names]
  | real =>
    cases hres : oracle cfg.distance_cutoff j.tax_id j.seqs with
    | error e =>
      right
      simp only [jobRowsJ, jobResult, hk, hres]
    | ok rows =>
      left
      simp only [jobRowsJ, jobResult, hk, hres]
      rw [tagRank_names]
      exact horacle _ _ _ _ hres

theorem nodeNames_mem {oracle : FilterOracle} {cfg : FilterConfig}
    (horacle : ∀ q t seqs rows, oracle q t seqs = .ok rows →
      (rows.map FilterRow.seqname).Perm seqs)
    {m : TaxNode} {j : SubJob} (hjm : nodeJob cfg m = some j) {x : String}
    (hx : x ∈ (jobRowsJ oracle cfg j).map FilterRow.seqname) : x ∈ m.seqIds := by
  rcases jobRowsJ_names horacle j with hp | hnil
  · have hxs : x ∈ j.seqs := hp.mem_iff.1 hx
    rw [(nodeJob_some hjm).2.2.2.1, List.mem_dedup] at hxs
    exact hxs
  · rw [hnil] at hx
    cases hx

theorem nodeNames_nodup {oracle : FilterOracle} {cfg : FilterConfig}
    (horacle : ∀ q t seqs rows, oracle q t seqs = .ok rows →
      (rows.map FilterRow.seqname).Perm seqs)
    {m : TaxNode} {j : SubJob} (hjm : nodeJob cfg m = some j) :
    ((jobRowsJ oracle cfg j).map FilterRow.seqname).Nodup := by
  rcases jobRowsJ_names horacle j with hp | hnil
  · refine hp.nodup_iff.2 ?_
    rw [(nodeJob_some hjm).2.2.2.1]
    exact List.nodup_dedup _
  · rw [hnil]
    exact List.nodup_nil

/-- C5 as stated is false on the code: `c5CexTax` attaches the same
sequence id x at two species nodes (duplicate seqinfo rows are accepted
silently); the set-level aggregation assertion passes and the run succeeds,
yet x appears twice in the aggregated outcome. -/
theorem claim_C5_counterexample :
    runAction c5CexCfg c5CexTax failOracle [0, 1]
      = .ok [⟨"x", none, none, false, some "A"⟩, ⟨"x", none, none, false, some "B"⟩] ∧
    ¬ (([⟨"x", none, none, false, some "A"⟩, ⟨"x", none, none, false, some "B"⟩]
        : List FilterRow).map FilterRow.seqname).Nodup :=
  ⟨rfl, by decide⟩

/-- C5 amended: under the spec section 3 taxonomy invariants (unique
tax_ids, each sequence id attached at exactly one node, ranks strictly
deepening along edges) and the AlignAndDistance collaborator contract (a
successful job reports exactly its input sequences), every successful run
of the filtering action lists every attached sequence id exactly once in
the aggregated outcome: the outcome seqnames are duplicate free and their
set equals the set of all attached ids (a run violating the set equality
raises instead of succeeding). -/
theorem claim_C5 (cfg : FilterConfig) (tax : Taxonomy) (oracle : FilterOracle)
    (π : List Nat) (out : List FilterRow)
    (htid : (tax.root.subtree.map TaxNode.tax_id).Nodup)
    (hids : (allSeqIdsOf tax.root).Nodup)
    (hstrict : ∀ p ∈ tax.root.subtree, ∀ c ∈ p.children.toList,
      rankIdx tax.ranks p.rank < rankIdx tax.ranks c.rank)
    (horacle : ∀ q t seqs rows, oracle q t seqs = .ok rows →
      (rows.map FilterRow.seqname).Perm seqs)
    (hπ : π.Perm (List.range (submittedJobs cfg tax).length))
    (hrun : runAction cfg tax oracle π = .ok out) :
    (out.map FilterRow.seqname).Nodup ∧
    (out.map FilterRow.seqname).toFinset = (allSeqIds tax).toFinset := by
  obtain ⟨hout, hassert⟩ := runAction_ok_elim cfg tax oracle π out hrun
  refine ⟨?_, hassert.symm⟩
  have hperm2 : (out.map FilterRow.seqname).Perm
      (sequences_above_rank tax cfg.filter_rank
        ++ ((submittedJobs cfg tax).flatMap (jobRowsJ oracle cfg)).map FilterRow.seqname) := by
    rw [hout, List.map_append, mock_filter_names]
    exact ((merged_perm hπ).map FilterRow.seqname).append_left _
  rw [hperm2.nodup_iff]
  have hA : (sequences_above_rank tax cfg.filter_rank).Nodup := by
    refine List.Nodup.sublist ?_ hids
    exact sublist_flatMap _ (List.filter_sublist _)
  have hNeq : ((submittedJobs cfg tax).flatMap (jobRowsJ oracle cfg)).map FilterRow.seqname
      = (tax.root.subtree.filter (fun n => n.rank = cfg.filter_rank)).flatMap
          (fun m => match nodeJob cfg m with
            | none => []
            | some j => (jobRowsJ oracle cfg j).map FilterRow.seqname) := by
    rw [List.map_flatMap]
    show ((tax.root.subtree.filter (fun n => n.rank = cfg.filter_rank)).filterMap
        (nodeJob cfg)).flatMap _ = _
    rw [flatMap_filterMap]
    apply List.flatMap_congr
    intro m hm
    cases nodeJob cfg m <;> rfl
  have hfl_nodup : (tax.root.subtree.filter
      (fun n => n.rank = cfg.filter_rank)).Nodup :=
    (htid.of_map).filter _
  have hN : ((tax.root.subtree.filter (fun n => n.rank = cfg.filter_rank)).flatMap
      (fun m => match nodeJob cfg m with
        | none => []
        | some j => (jobRowsJ oracle cfg j).map FilterRow.seqname)).Nodup := by
    refine nodup_flatMap_of _ _ ?_ ?_
    · intro m hm
      cases hjm : nodeJob cfg m with
      | none => simp
      | some j =>
        simp only [hjm]
        exact nodeNames_nodup horacle hjm
    · refine hfl_nodup.pairwise_of_forall_ne ?_
      intro m₁ hm₁ m₂ hm₂ hne x hx₁ hx₂
      rw [List.mem_filter, decide_eq_true_eq] at hm₁ hm₂
      obtain ⟨hm₁s, hr₁⟩ := hm₁
      obtain ⟨hm₂s, hr₂⟩ := hm₂
      have hx₁' : x ∈ m₁.seqIds := by
        cases hjm₁ : nodeJob cfg m₁ with
        | none =>
          rw [hjm₁] at hx₁
          cases hx₁
        | some j₁ =>
          rw [hjm₁] at hx₁
          exact nodeNames_mem horacle hjm₁ hx₁
      have hx₂' : x ∈ m₂.seqIds := by
        cases hjm₂ : nodeJob cfg m₂ with
        | none =>
          rw [hjm₂] at hx₂
          cases hx₂
        | some j₂ =>
          rw [hjm₂] at hx₂
          exact nodeNames_mem horacle hjm₂ hx₂
      obtain ⟨a₁, ha₁, hxa₁⟩ := List.mem_flatMap.1 hx₁'
      obtain ⟨a₂, ha₂, hxa₂⟩ := List.mem_flatMap.1 hx₂'
      have ha₁r : a₁ ∈ tax.root.subtree := subtree_trans.1 tax.root m₁ hm₁s a₁ ha₁
      have ha₂r : a₂ ∈ tax.root.subtree := subtree_trans.1 tax.root m₂ hm₂s a₂ ha₂
      have haeq : a₁ = a₂ := nodup_flatMap_unique hids ha₁r ha₂r hxa₁ hxa₂
      rw [haeq] at ha₁
      rcases subtree_overlap.1 tax.root htid m₁ hm₁s m₂ hm₂s a₂ ha₁ ha₂ with hcomp | hcomp
      · rcases rank_strict_subtree hstrict m₂ hm₂s m₁ hcomp with heq | hlt
        · exact hne heq
        · rw [hr₁, hr₂] at hlt
          exact absurd hlt (lt_irrefl _)
      · rcases rank_strict_subtree hstrict m₁ hm₁s m₂ hcomp with heq | hlt
        · exact hne heq.symm
        · rw [hr₁, hr₂] at hlt
          exact absurd hlt (lt_irrefl _)
  rw [hNeq]
  refine hA.append hN ?_
  intro x hxA hxN
  obtain ⟨n, hn, hlt, hxn⟩ := mem_sequences_above_rank.1 hxA
  obtain ⟨m, hm, hxm⟩ := List.mem_flatMap.1 hxN
  rw [List.mem_filter, decide_eq_true_eq] at hm
  obtain ⟨hms, hmr⟩ := hm
  have hx' : x ∈ m.seqIds := by
    cases hjm : nodeJob cfg m with
    | none =>
      rw [hjm] at hxm
      cases hxm
    | some j =>
      rw [hjm] at hxm
      exact nodeNames_mem horacle hjm hxm
  obtain ⟨a, ha, hxa⟩ := List.mem_flatMap.1 hx'
  have har : a ∈ tax.root.subtree := subtree_trans.1 tax.root m hms a ha
  have hna : n = a := nodup_flatMap_unique hids hn har hxn hxa
  rw [← hna] at ha
  rcases rank_strict_subtree hstrict m hms n ha with rfl | hlt₂
  · rw [hmr] at hlt
    exact absurd hlt (lt_irrefl _)
  · rw [hmr] at hlt₂
    exact absurd (hlt₂.trans hlt) (lt_irrefl _)

/-- Witness for the amended C5: a successful run on the two-species fixture
with a contract-honouring oracle lists a and b exactly once. -/
theorem claim_C5_witness :
    (([⟨"a", some "a", none, false, some "A"⟩, ⟨"b", some "b", none, false, some "B"⟩]
        : List FilterRow).map FilterRow.seqname).Nodup ∧
    (([⟨"a", some "a", none, false, some "A"⟩, ⟨"b", some "b", none, false, some "B"⟩]
        : List FilterRow).map FilterRow.seqname).toFinset
      = (allSeqIds schedTax).toFinset :=
  claim_C5 schedCfg schedTax okOracle [0, 1] _ (by decide) (by decide) (by decide)
    (by
      intro q t seqs rows h
      cases h
      rw [List.map_map]
      exact List.Perm.of_eq (List.map_id _))
    (by decide) rfl

/-! ## Claim C9: the usearch all-pairs parser -/

theorem bestRow_mem_aux {rows : List B6Row} {acc : Option B6Row} {r : B6Row}
    (h : rows.foldl
      (fun acc r =>
        match acc with
        | none => some r
        | some b => if b.align_len < r.align_len then some r else acc)
      acc = some r) :
    r ∈ rows ∨ acc = some r := by
  induction rows generalizing acc with
  | nil => exact Or.inr h
  | cons a l ih =>
    rw [List.foldl_cons] at h
    rcases ih h with hr | hacc
    · exact Or.inl (List.mem_cons_of_mem _ hr)
    · cases acc with
      | none =>
        simp only [] at hacc
        cases hacc
        exact Or.inl (List.mem_cons_self _ _)
      | some b =>
        simp only [] at hacc
        by_cases hlt : b.align_len < a.align_len
        · rw [if_pos hlt] at hacc
          cases hacc
          exact Or.inl (List.mem_cons_self _ _)
        · rw [if_neg hlt] at hacc
          exact Or.inr hacc

theorem bestRow_mem {rows : List B6Row} {r : B6Row} (h : bestRow rows = some r) :
    r ∈ rows := by
  rcases bestRow_mem_aux h with hr | hacc
  · exact hr
  · cases hacc

theorem retained_elim {rows : List B6Row} {r : B6Row} (h : r ∈ retainedRows rows) :
    bestRow (rows.filter (fun r₂ => (r₂.query, r₂.target) = (r.query, r.target)))
      = some r := by
  unfold retainedRows at h
  rw [List.mem_filterMap] at h
  obtain ⟨k, -, hbr⟩ := h
  have hrk : (r.query, r.target) = k := by
    have hmem := bestRow_mem hbr
    rw [List.mem_filter, decide_eq_true_eq] at hmem
    exact hmem.2
  rw [← hrk] at hbr
  exact hbr

theorem retained_key_unique {rows : List B6Row} {r₁ r₂ : B6Row}
    (h₁ : r₁ ∈ retainedRows rows) (h₂ : r₂ ∈ retainedRows rows)
    (hq : r₁.query = r₂.query) (ht : r₁.target = r₂.target) : r₁ = r₂ := by
  have e₁ := retained_elim h₁
  have e₂ := retained_elim h₂
  rw [hq, ht] at e₁
  rw [e₂] at e₁
  exact (Option.some.inj e₁).symm

theorem retained_names_mem {rows : List B6Row} {seqnames : List String}
    (hA : seqnames.toFinset
      = ((retainedRows rows).map B6Row.query).toFinset
        ∪ ((retainedRows rows).map B6Row.target).toFinset)
    {r : B6Row} (hr : r ∈ retainedRows rows) :
    r.query ∈ seqnames ∧ r.target ∈ seqnames := by
  constructor
  · rw [← List.mem_toFinset, hA, Finset.mem_union]
    exact Or.inl (List.mem_toFinset.2 (List.mem_map_of_mem _ hr))
  · rw [← List.mem_toFinset, hA, Finset.mem_union]
    exact Or.inr (List.mem_toFinset.2 (List.mem_map_of_mem _ hr))

/-- C9 as stated is false on the code: with the expected names a, b, c and
the three rows (a,b), (b,c), (a,a), the name-set and count checks both pass
(three distinct keys, 3 = 3*2/2), so the parser returns a matrix instead of
raising — but the self-alignment row (a,a) writes 1 - 90/100 ≠ 0 onto the
diagonal. -/
theorem claim_C9_counterexample :
    parse_usearch_allpairs c9CexRows ["a", "b", "c"]
      = .ok (buildMat ["a", "b", "c"] (retainedRows c9CexRows)) ∧
    matCell ["a", "b", "c"] (retainedRows c9CexRows) 0 0 = 1 - 90 / 100 ∧
    (1 - 90 / 100 : ℚ) ≠ 0 := by
  refine ⟨?_, rfl, by norm_num⟩
  rw [parse_usearch_allpairs, if_neg (by decide), if_neg (by decide)]

/-- C9 amended: the parser raises `UsearchError` exactly when the name sets
differ or the retained pairwise row count is not n(n-1)/2, and otherwise
returns the n-by-n matrix; that matrix is symmetric with zero diagonal
provided the retained rows pair no sequence with itself and contain no pair
in both orientations (degenerate inputs violating this can produce a
nonzero diagonal or an asymmetric matrix while passing both checks). -/
theorem claim_C9 (rows : List B6Row) (seqnames : List String) :
    (seqnames.toFinset ≠ ((retainedRows rows).map B6Row.query).toFinset
        ∪ ((retainedRows rows).map B6Row.target).toFinset →
      parse_usearch_allpairs rows seqnames = .error .missingSequences) ∧
    (seqnames.toFinset = ((retainedRows rows).map B6Row.query).toFinset
        ∪ ((retainedRows rows).map B6Row.target).toFinset →
      seqnames.length * (seqnames.length - 1) / 2 ≠ (retainedRows rows).length →
      parse_usearch_allpairs rows seqnames = .error .incompletePairs) ∧
    (seqnames.toFinset = ((retainedRows rows).map B6Row.query).toFinset
        ∪ ((retainedRows rows).map B6Row.target).toFinset →
      seqnames.length * (seqnames.length - 1) / 2 = (retainedRows rows).length →
      parse_usearch_allpairs rows seqnames
        = .ok (buildMat seqnames (retainedRows rows))) ∧
    ((buildMat seqnames (retainedRows rows)).length = seqnames.length ∧
      ∀ row ∈ buildMat seqnames (retainedRows rows), row.length = seqnames.length) ∧
    (seqnames.toFinset = ((retainedRows rows).map B6Row.query).toFinset
        ∪ ((retainedRows rows).map B6Row.target).toFinset →
      (∀ r ∈ retainedRows rows, r.query ≠ r.target) →
      (∀ r₁ ∈ retainedRows rows, ∀ r₂ ∈ retainedRows rows,
        r₁.query = r₂.target → r₁.target = r₂.query → False) →
      (∀ x y, matCell seqnames (retainedRows rows) x y
          = matCell seqnames (retainedRows rows) y x) ∧
      (∀ x, matCell seqnames (retainedRows rows) x x = 0)) := by
  refine ⟨?_, ?_, ?_, ?_, ?_⟩
  · intro hA
    rw [parse_usearch_allpairs, if_pos hA]
  · intro hA hB
    rw [parse_usearch_allpairs, if_neg (fun h => h hA), if_pos hB]
  · intro hA hB
    rw [parse_usearch_allpairs, if_neg (fun h => h hA), if_neg (fun h => h hB)]
  · constructor
    · rw [buildMat, List.length_map, List.length_range]
    · intro row hrow
      rw [buildMat] at hrow
      obtain ⟨x, -, rfl⟩ := List.mem_map.1 hrow
      rw [List.length_map, List.length_range]
  · intro hA hself hrev
    have hinj : ∀ {a b : String}, a ∈ seqnames → b ∈ seqnames →
        seqnames.indexOf a = seqnames.indexOf b → a = b :=
      fun ha hb he => (List.indexOf_inj ha hb).1 he
    have hfind : ∀ (x y : Nat) (r : B6Row), r ∈ retainedRows rows →
        seqnames.indexOf r.target = x → seqnames.indexOf r.query = y →
        (retainedRows rows).find?
            (fun r₂ => seqnames.indexOf r₂.target = x ∧ seqnames.indexOf r₂.query = y)
          = some r := by
      intro x y r hr hrt hrq
      cases hf : (retainedRows rows).find?
          (fun r₂ => seqnames.indexOf r₂.target = x ∧ seqnames.indexOf r₂.query = y) with
      | none =>
        rw [List.find?_eq_none] at hf
        exact absurd (by rw [decide_eq_true_eq]; exact ⟨hrt, hrq⟩) (hf r hr)
      | some r₂ =>
        have hmem := List.mem_of_find?_eq_some hf
        have hpred := List.find?_some hf
        rw [decide_eq_true_eq] at hpred
        have htt : r₂.target = r.target :=
          hinj (retained_names_mem hA hmem).2 (retained_names_mem hA hr).2
            (by rw [hpred.1, hrt])
        have hqq : r₂.query = r.query :=
          hinj (retained_names_mem hA hmem).1 (retained_names_mem hA hr).1
            (by rw [hpred.2, hrq])
        rw [retained_key_unique hmem hr hqq htt]
    have hnone₁ : ∀ (x y : Nat),
        ((retainedRows rows).find?
          (fun r₂ => seqnames.indexOf r₂.target = x ∧ seqnames.indexOf r₂.query = y)
            = none)
        ↔ ∀ r ∈ retainedRows rows,
            ¬(seqnames.indexOf r.target = x ∧ seqnames.indexOf r.query = y) := by
      intro x y
      rw [List.find?_eq_none]
      constructor
      · intro h r hr hc
        exact absurd (by rw [decide_eq_true_eq]; exact hc) (h r hr)
      · intro h r hr hc
        rw [decide_eq_true_eq] at hc
        exact h r hr hc
    constructor
    · intro x y
      unfold matCell
      cases h₁ : (retainedRows rows).find?
          (fun r₂ => seqnames.indexOf r₂.target = x ∧ seqnames.indexOf r₂.query = y) with
      | some r₁ =>
        have hm₁ := List.mem_of_find?_eq_some h₁
        have hp₁ := List.find?_some h₁
        rw [decide_eq_true_eq] at hp₁
        have hrev₁ : (retainedRows rows).find?
            (fun r₂ => seqnames.indexOf r₂.target = y ∧ seqnames.indexOf r₂.query = x)
              = none := by
          rw [hnone₁]
          intro r₂ hr₂ ⟨hc₁, hc₂⟩
          have ht2 : r₂.target = r₁.query :=
            hinj (retained_names_mem hA hr₂).2 (retained_names_mem hA hm₁).1
              (by rw [hc₁, hp₁.2])
          have hq2 : r₂.query = r₁.target :=
            hinj (retained_names_mem hA hr₂).1 (retained_names_mem hA hm₁).2
              (by rw [hc₂, hp₁.1])
          exact hrev r₂ hr₂ r₁ hm₁ hq2 ht2
        rw [hrev₁]
        have h₂ : (retainedRows rows).find?
            (fun r₂ => seqnames.indexOf r₂.query = y ∧ seqnames.indexOf r₂.target = x)
              = some r₁ := by
          cases hf : (retainedRows rows).find?
              (fun r₂ => seqnames.indexOf r₂.query = y ∧ seqnames.indexOf r₂.target = x) with
          | none =>
            rw [List.find?_eq_none] at hf
            exact absurd (by rw [decide_eq_true_eq]; exact ⟨hp₁.2, hp₁.1⟩) (hf r₁ hm₁)
          | some r₂ =>
            have hmem₂ := List.mem_of_find?_eq_some hf
            have hpred₂ := List.find?_some hf
            rw [decide_eq_true_eq] at hpred₂
            have hqq : r₂.query = r₁.query :=
              hinj (retained_names_mem hA hmem₂).1 (retained_names_mem hA hm₁).1
                (by rw [hpred₂.1, hp₁.2])
            have htt : r₂.target = r₁.target :=
              hinj (retained_names_mem hA hmem₂).2 (retained_names_mem hA hm₁).2
                (by rw [hpred₂.2, hp₁.1])
            rw [retained_key_unique hmem₂ hm₁ hqq htt]
        rw [h₂]
      | none =>
        cases h₂ : (retainedRows rows).find?
            (fun r₂ => seqnames.indexOf r₂.query = x ∧ seqnames.indexOf r₂.target = y) with
        | some r₂ =>
          have hm₂ := List.mem_of_find?_eq_some h₂
          have hp₂ := List.find?_some h₂
          rw [decide_eq_true_eq] at hp₂
          rw [hfind y x r₂ hm₂ hp₂.2 hp₂.1]
        | none =>
          have h₃ : (retainedRows rows).find?
              (fun r₂ => seqnames.indexOf r₂.target = y ∧ seqnames.indexOf r₂.query = x)
                = none := by
            rw [hnone₁]
            intro r hr hc
            rw [List.find?_eq_none] at h₂
            exact absurd (by rw [decide_eq_true_eq]; exact ⟨hc.2, hc.1⟩) (h₂ r hr)
          have h₄ : (retainedRows rows).find?
              (fun r₂ => seqnames.indexOf r₂.query = y ∧ seqnames.indexOf r₂.target = x)
                = none := by
            cases hf : (retainedRows rows).find?
                (fun r₂ => seqnames.indexOf r₂.query = y ∧ seqnames.indexOf r₂.target = x) with
            | none => rfl
            | some r =>
              have hm := List.mem_of_find?_eq_some hf
              have hp := List.find?_some hf
              rw [decide_eq_true_eq] at hp
              rw [hnone₁] at h₁
              exact absurd ⟨hp.2, hp.1⟩ (h₁ r hm)
          rw [h₃, h₄]
    · intro x
      unfold matCell
      have hd₁ : (retainedRows rows).find?
          (fun r₂ => seqnames.indexOf r₂.target = x ∧ seqnames.indexOf r₂.query = x)
            = none := by
        rw [hnone₁]
        intro r hr hc
        exact hself r hr (hinj (retained_names_mem hA hr).1 (retained_names_mem hA hr).2
          (by rw [hc.2, hc.1]))
      have hd₂ : (retainedRows rows).find?
          (fun r₂ => seqnames.indexOf r₂.query = x ∧ seqnames.indexOf r₂.target = x)
            = none := by
        cases hf : (retainedRows rows).find?
            (fun r₂ => seqnames.indexOf r₂.query = x ∧ seqnames.indexOf r₂.target = x) with
        | none => rfl
        | some r =>
          have hm := List.mem_of_find?_eq_some hf
          have hp := List.find?_some hf
          rw [decide_eq_true_eq] at hp
          exact absurd (hinj (retained_names_mem hA hm).1 (retained_names_mem hA hm).2
            (by rw [hp.1, hp.2])) (hself r hm)
      rw [hd₁, hd₂]

/-- Witness for the amended C9 on the single-pair input (a, b): both checks
pass, the parser returns the 2-by-2 matrix, and that matrix is symmetric
with zero diagonal. -/
theorem claim_C9_witness :
    parse_usearch_allpairs [⟨"a", "b", 100, 10⟩] ["a", "b"]
      = .ok (buildMat ["a", "b"] (retainedRows [⟨"a", "b", 100, 10⟩])) ∧
    matCell ["a", "b"] (retainedRows [⟨"a", "b", 100, 10⟩]) 0 1
      = matCell ["a", "b"] (retainedRows [⟨"a", "b", 100, 10⟩]) 1 0 ∧
    matCell ["a", "b"] (retainedRows [⟨"a", "b", 100, 10⟩]) 0 0 = 0 := by
  have h := claim_C9 [⟨"a", "b", 100, 10⟩] ["a", "b"]
  refine ⟨h.2.2.1 (by decide) (by decide), ?_, ?_⟩
  · exact (h.2.2.2.2 (by decide) (by decide) (by decide)).1 0 1
  · exact (h.2.2.2.2 (by decide) (by decide) (by decide)).2 0

end Deenurp

